import Mathlib

/-! # Banker's algorithm safety check (`banker.go`)

A shallow embedding of `safeState` and `initRun` from `banker.go` and of the
package-level variables they work on, followed by theorems about them.

Modelling conventions.

* Go `int` is taken to be 64 bits wide. The quantities `available`,
  `assigned`, `total`, `necessary` are integers (`Int`), and the results of the
  program's additions and subtractions on them are wrapped into the 64-bit
  range by `wrap64`, as Go does on overflow. The counters `p`, `doneCounter`
  and `failCounter` start at `0`, are only ever incremented or reset to `0`
  and stay below the number of processes, so they are `Nat`.
* The package constant `nOfProcesses` is a parameter of the model, so that the
  results hold for every number of processes and not only for `20`.
* A slice access out of range makes the Go program panic; every access is
  therefore an `Option` lookup and the run ends in `Res.panicked`.
* The `for p := 0; ; p++` loop has no bound: `run` takes a number of loop
  iterations (visits) it may perform and ends in `Res.running` when they are
  used up before a `return` is reached.
-/

namespace Banker

/-! ## The program -/

/-- The package-level variables of `banker.go` (lines 35-41). -/
structure Globals where
  available : List Int
  assigned : List (List Int)
  total : List (List Int)
  necessary : List (List Int)
  safeSequence : List String
deriving DecidableEq, Repr

/-- The local variables of `safeState` that live across loop iterations
(lines 139-147), together with the globals. -/
structure Frame where
  g : Globals
  p : Nat
  done : List Bool
  doneCounter : Nat
  failCounter : Nat
deriving DecidableEq, Repr

/-- What one loop iteration does: go on to the next iteration, execute a
`return b, nil`, or panic on an index out of range. -/
inductive Step where
  | next (s : Frame)
  | ret (safe : Bool) (g : Globals)
  | panic
deriving DecidableEq, Repr

/-- Result of running `safeState`: it returned `(safe, err)` leaving the
globals as `final`, it panicked, or it is still looping after the allotted
number of visits. -/
inductive Res where
  | returned (safe : Bool) (err : Option String) (final : Globals)
  | panicked
  | running
deriving DecidableEq, Repr

/-- The least value of a Go `int`, `-2^63`. -/
def intMin : Int := -9223372036854775808

/-- The greatest value of a Go `int`, `2^63 - 1`. -/
def intMax : Int := 9223372036854775807

/-- The value a 64-bit `int` takes when the exact result of an operation is
`x`: the representative of `x` modulo `2^64` in `-2^63 .. 2^63 - 1`. -/
def wrap64 (x : Int) : Int :=
  (x + 9223372036854775808) % 18446744073709551616 - 9223372036854775808

/-- The inner loop of lines 152-156, `for r := range need`, started with
`isSufficient = acc`: it walks `need` and `available` at the same index `r`
and panics when `available` is the shorter one. -/
def isSufficient : List Int → List Int → Bool → Option Bool
  | [], _, acc => some acc
  | _ :: _, [], _ => none
  | n :: ns, a :: as, acc => isSufficient ns as (if n > a then false else acc)

/-- The loop of lines 162-164, `for rindex, rqty := range assigned[p]`:
`available[rindex] += rqty` in 64-bit arithmetic, panicking when `available`
is the shorter one. -/
def freeResources : List Int → List Int → Option (List Int)
  | avail, [] => some avail
  | [], _ :: _ => none
  | a :: as, q :: qs => (freeResources as qs).map (fun t => wrap64 (a + q) :: t)

/-- The identifier `fmt.Sprintf("P%v", p)` of line 167. -/
def procName (p : Nat) : String := "P" ++ toString p

/-- Lines 183-187 followed by the post statement `p++`: after the last index
the scan restarts at `0` with `failCounter = 0`. -/
def advance (s : Frame) : Frame :=
  if s.p + 1 = s.g.necessary.length then { s with p := 0, failCounter := 0 }
  else { s with p := s.p + 1 }

/-- One iteration of the loop body, lines 148-187. -/
def visit (nOfProcesses : Nat) (s : Frame) : Step :=
  match s.g.necessary[s.p]? with
  | none => .panic
  | some need =>
    match isSufficient need s.g.available true with
    | none => .panic
    | some suff =>
      match s.done[s.p]? with
      | none => .panic
      | some d =>
        if !d && suff then
          match s.g.assigned[s.p]? with
          | none => .panic
          | some held =>
            match freeResources s.g.available held with
            | none => .panic
            | some avail =>
              .next (advance
                { s with
                  g := { s.g with
                         available := avail
                         safeSequence := s.g.safeSequence ++ [procName s.p] }
                  done := s.done.set s.p true
                  doneCounter := s.doneCounter + 1 })
        else if s.doneCounter ≥ nOfProcesses then .ret true s.g
        else if s.failCounter + 1 ≥ nOfProcesses then .ret false s.g
        else .next (advance { s with failCounter := s.failCounter + 1 })

/-- The loop of line 147, allowed `fuel` visits. -/
def run (nOfProcesses : Nat) : Nat → Frame → Res
  | 0, _ => .running
  | fuel + 1, s =>
    match visit nOfProcesses s with
    | .next s' => run nOfProcesses fuel s'
    | .ret safe g => .returned safe none g
    | .panic => .panicked

/-- The locals as declared in lines 139-145, with `p := 0`. -/
def entry (nOfProcesses : Nat) (g : Globals) : Frame :=
  { g := g, p := 0, done := List.replicate nOfProcesses false,
    doneCounter := 0, failCounter := 0 }

/-- The function `safeState` (lines 134-191), allowed `fuel` visits. -/
def safeState (nOfProcesses fuel : Nat) (g : Globals) : Res :=
  run nOfProcesses fuel (entry nOfProcesses g)

/-! ## Notions used to state the properties -/

/-- The entry `necessary[p][r]` (`0` outside the matrix). -/
def need (g : Globals) (p r : Nat) : Int := (g.necessary.getD p []).getD r 0

/-- The entry `assigned[p][r]` (`0` outside the matrix). -/
def held (g : Globals) (p r : Nat) : Int := (g.assigned.getD p []).getD r 0

/-- The pool made of the `available` vector of `g`. -/
def pool0 (g : Globals) : Nat → Int := fun r => g.available.getD r 0

/-- The pool after process `p` has released what it holds: `assigned[p][r]`
is added to `pool[r]` with the program's 64-bit addition, for every `r` of the
row `assigned[p]`. -/
def release (g : Globals) (p : Nat) (pool : Nat → Int) : Nat → Int :=
  fun r => if r < (g.assigned.getD p []).length then wrap64 (pool r + held g p r) else pool r

/-- The pool after the processes of `seq` have released what they hold, one
after the other. -/
def poolAfter (g : Globals) : (Nat → Int) → List Nat → Nat → Int
  | pool, [] => pool
  | pool, p :: rest => poolAfter g (release g p pool) rest

/-- The exact sum, in the integers, of `pool[r]` and of what the processes of
`seq` hold. -/
def poolSum (g : Globals) (pool : Nat → Int) (seq : List Nat) : Nat → Int :=
  fun r => pool r + (seq.map (fun p => held g p r)).sum

/-- Process `p` can be scheduled from `pool`: no resource type `r < R` has
`need[p][r] > pool[r]`. -/
def Fits (g : Globals) (R : Nat) (pool : Nat → Int) (p : Nat) : Prop :=
  ∀ r, r < R → need g p r ≤ pool r

instance (g : Globals) (R : Nat) (pool : Nat → Int) (p : Nat) : Decidable (Fits g R pool p) := by
  unfold Fits; infer_instance

/-- Replaying `seq` from `pool`: each process must fit in the pool at the time
it is scheduled, and then its `assigned` resources are added to the pool. -/
def replay (g : Globals) (R : Nat) : (Nat → Int) → List Nat → Bool
  | _, [] => true
  | pool, p :: rest =>
    decide (Fits g R pool p) && replay g R (release g p pool) rest

/-- Replaying `seq` from `pool` in the integers: as `replay`, the `assigned`
resources being added to the pool exactly, without reduction to 64 bits. -/
def replayExact (g : Globals) (R : Nat) : (Nat → Int) → List Nat → Bool
  | _, [] => true
  | pool, p :: rest =>
    decide (Fits g R pool p) && replayExact g R (fun r => pool r + held g p r) rest

/-- The dimensions agree: `P` rows in `assigned` and `necessary`, and `R`
entries in `available` and in every row. -/
def Consistent (P R : Nat) (g : Globals) : Prop :=
  g.available.length = R ∧ g.necessary.length = P ∧ g.assigned.length = P ∧
  (∀ row ∈ g.necessary, row.length = R) ∧ (∀ row ∈ g.assigned, row.length = R)

instance (P R : Nat) (g : Globals) : Decidable (Consistent P R g) := by
  unfold Consistent; infer_instance

/-- No addition of the evaluation can overflow: every `available[r]` is at
least `-2^63`, and `available[r]` plus all of `assigned[0..P-1][r]` is at most
`2^63 - 1`. -/
def Roomy (P : Nat) (g : Globals) : Prop :=
  ∀ r, intMin ≤ pool0 g r ∧
    pool0 g r + ((List.range P).map (fun p => held g p r)).sum ≤ intMax

/-- No addition of two evaluations in a row can overflow: every `available[r]`
is at least `-2^63`, and `available[r]` plus twice all of
`assigned[0..P-1][r]` is at most `2^63 - 1`. -/
def RoomyTwice (P : Nat) (g : Globals) : Prop :=
  ∀ r, intMin ≤ pool0 g r ∧
    pool0 g r + 2 * ((List.range P).map (fun p => held g p r)).sum ≤ intMax

/-- Every entry of `available`, `assigned` and `necessary` is non-negative. -/
def NonNeg (g : Globals) : Prop :=
  (∀ x ∈ g.available, (0 : Int) ≤ x) ∧ (∀ row ∈ g.assigned, ∀ x ∈ row, (0 : Int) ≤ x) ∧
  (∀ row ∈ g.necessary, ∀ x ∈ row, (0 : Int) ≤ x)

instance (g : Globals) : Decidable (NonNeg g) := by
  unfold NonNeg; infer_instance

/-! ## Measure and invariants used in the proofs -/

/-- Upper bound on the number of visits still to be made at index `p` with
`dc` processes done and `fc` failures counted in the current pass. -/
def muN (P p dc fc : Nat) : Nat :=
  if P ≤ dc then 1
  else (P - p) + P * (P - dc - 1) + (if fc = p then 0 else P) + 1

/-- Upper bound on the number of visits still to be made from frame `s`. -/
def mu (P : Nat) (s : Frame) : Nat := muN P s.p s.doneCounter s.failCounter

/-- Invariant of the loop of `safeState` started on the globals `g0`: `seq` is
the list of the processes completed so far, in order. -/
structure Inv (P R : Nat) (g0 : Globals) (seq : List Nat) (s : Frame) : Prop where
  asg : s.g.assigned = g0.assigned
  nec : s.g.necessary = g0.necessary
  tot : s.g.total = g0.total
  recd : s.g.safeSequence = g0.safeSequence ++ seq.map procName
  availLen : s.g.available.length = R
  avail : ∀ r, s.g.available.getD r 0 = poolAfter g0 (pool0 g0) seq r
  pLt : s.p < P
  doneLen : s.done.length = P
  doneIff : ∀ i, s.done[i]? = some true ↔ i ∈ seq
  nodup : seq.Nodup
  cnt : s.doneCounter = seq.length
  fcLe : s.failCounter ≤ s.p
  ok : replay g0 R (pool0 g0) seq = true
  stuck : s.failCounter = s.p →
    ∀ i, i < s.p → i ∈ seq ∨ ¬ Fits g0 R (poolAfter g0 (pool0 g0) seq) i

/-- The state of the globals when `safeState` returns `safe`, in terms of the
list `seq` of the processes it completed, in order. -/
structure Final (P R : Nat) (g0 : Globals) (safe : Bool) (g : Globals) (seq : List Nat) :
    Prop where
  asg : g.assigned = g0.assigned
  nec : g.necessary = g0.necessary
  tot : g.total = g0.total
  recd : g.safeSequence = g0.safeSequence ++ seq.map procName
  availLen : g.available.length = R
  avail : ∀ r, g.available.getD r 0 = poolAfter g0 (pool0 g0) seq r
  nodup : seq.Nodup
  lt : ∀ i, i ∈ seq → i < P
  ok : replay g0 R (pool0 g0) seq = true
  whenSafe : safe = true → P ≤ seq.length
  whenUnsafe : safe = false →
    seq.length < P ∧ ∀ i, i < P → i ∈ seq ∨ ¬ Fits g0 R (poolAfter g0 (pool0 g0) seq) i

/-- No entry of `assigned` is negative. -/
def HeldNonNeg (g : Globals) : Prop := ∀ p r, 0 ≤ held g p r

/-- The part of the loop invariant that needs no assumption on the dimensions:
`done`, `doneCounter` and `safeSequence` all describe the list `seq`. -/
structure SeqInv (P : Nat) (prior : List String) (seq : List Nat) (s : Frame) : Prop where
  recd : s.g.safeSequence = prior ++ seq.map procName
  doneLen : s.done.length = P
  doneIff : ∀ i, s.done[i]? = some true ↔ i ∈ seq
  nodup : seq.Nodup
  cnt : s.doneCounter = seq.length

/-- The globals `g` with `total` replaced by `t` and `l` put in front of
`safeSequence`. -/
def Globals.rebase (t : List (List Int)) (l : List String) (g : Globals) : Globals :=
  { g with total := t, safeSequence := l ++ g.safeSequence }

/-- The frame `s` with its globals rebased. -/
def Frame.rebase (t : List (List Int)) (l : List String) (s : Frame) : Frame :=
  { s with g := s.g.rebase t l }

/-- The step with its globals rebased. -/
def Step.rebase (t : List (List Int)) (l : List String) : Step → Step
  | .next s => .next (s.rebase t l)
  | .ret b g => .ret b (g.rebase t l)
  | .panic => .panic

/-- The result with its final globals rebased. -/
def Res.rebase (t : List (List Int)) (l : List String) : Res → Res
  | .returned b e g => .returned b e (g.rebase t l)
  | .panicked => .panicked
  | .running => .running

/-- The part of the globals that `safeState` reads: `available`, `assigned`
and `necessary`, with `total` and `safeSequence` emptied. -/
def Globals.core (g : Globals) : Globals :=
  { g with total := [], safeSequence := [] }

/-! ## Concrete states -/

/-- The instance of the specification's concrete scenario. -/
def textbook : Globals :=
  { available := [3, 3, 2]
    assigned := [[0, 1, 0], [2, 0, 0], [3, 0, 2]]
    total := [[7, 5, 3], [3, 2, 2], [9, 0, 2]]
    necessary := [[7, 4, 3], [1, 2, 2], [6, 0, 0]]
    safeSequence := [] }

/-- Two processes and one resource type: process 1 must finish before
process 0 can. -/
def relay : Globals :=
  { available := [1]
    assigned := [[0], [1]]
    total := [[2], [2]]
    necessary := [[2], [1]]
    safeSequence := [] }

/-- Two processes and one resource type: process 0 can finish, process 1
needs more than process 0 gives back. -/
def stalled : Globals :=
  { available := [0]
    assigned := [[1], [0]]
    total := [[1], [2]]
    necessary := [[0], [2]]
    safeSequence := [] }

/-- Two processes and three resource types, nothing available and every
process in need of something. -/
def starved : Globals :=
  { available := [0, 0, 0]
    assigned := [[1, 0, 0], [0, 1, 0]]
    total := [[2, 0, 0], [0, 1, 2]]
    necessary := [[1, 0, 0], [0, 0, 2]]
    safeSequence := [] }

/-- One process that needs nothing more. -/
def lone : Globals :=
  { available := [0, 3]
    assigned := [[1, 1]]
    total := [[1, 1]]
    necessary := [[0, 0]]
    safeSequence := [] }

/-- No process at all. -/
def nobody : Globals :=
  { available := [4, 4], assigned := [], total := [], necessary := [], safeSequence := [] }

/-- Two processes and one resource type, `available` at the largest 64-bit
value: process 1 can finish at once, and what process 0 gives back makes the
addition overflow. -/
def brim : Globals :=
  { available := [9223372036854775807]
    assigned := [[1], [0]]
    total := [[1], [5]]
    necessary := [[0], [5]]
    safeSequence := [] }

/-- The state `brim` with one unit less available: no addition overflows. -/
def nearBrim : Globals :=
  { available := [9223372036854775806]
    assigned := [[1], [0]]
    total := [[1], [5]]
    necessary := [[0], [5]]
    safeSequence := [] }

/-- One process that needs nothing more and holds one unit, `available` at the
largest 64-bit value. -/
def loneBrim : Globals :=
  { available := [9223372036854775807]
    assigned := [[1]]
    total := [[1]]
    necessary := [[0]]
    safeSequence := [] }

/-- Value of a string of decimal digits read after the number `acc`. -/
def digitsValue (acc : Nat) (cs : List Char) : Nat :=
  cs.foldl (fun a c => 10 * a + (c.toNat - 48)) acc

/-! ## The run seen as a sequence of visits -/

/-- The frame on which visit number `k` (counted from `0`) of the loop started
on `s0` is made, when the loop gets that far: no earlier visit returned or
panicked. -/
def frameAt (P : Nat) (s0 : Frame) : Nat → Option Frame
  | 0 => some s0
  | k + 1 =>
    match frameAt P s0 k with
    | some s =>
      match visit P s with
      | .next s' => some s'
      | _ => none
    | none => none

/-- Visit number `k` of the loop started on `s0` completes a process: it takes
the branch of lines 158-167, where `doneCounter` is incremented. -/
def completesAt (P : Nat) (s0 : Frame) (k : Nat) : Bool :=
  match frameAt P s0 k with
  | some s =>
    match visit P s with
    | .next s' => decide (s'.doneCounter = s.doneCounter + 1)
    | _ => false
  | none => false

/-- Invariant of the loop of `safeState` started on the globals `g0` that
holds without any assumption on the dimensions: `seq` is the list of the
processes completed so far, in order, and `available` is the entry content
plus what they held. -/
structure Lite (P : Nat) (g0 : Globals) (seq : List Nat) (s : Frame) : Prop where
  asg : s.g.assigned = g0.assigned
  nec : s.g.necessary = g0.necessary
  tot : s.g.total = g0.total
  recd : s.g.safeSequence = g0.safeSequence ++ seq.map procName
  availLen : s.g.available.length = g0.available.length
  avail : ∀ r, s.g.available.getD r 0 = poolAfter g0 (pool0 g0) seq r
  doneLen : s.done.length = P
  doneIff : ∀ i, s.done[i]? = some true ↔ i ∈ seq
  nodup : seq.Nodup
  cnt : s.doneCounter = seq.length

/-! ## Construction of a state: `initRun` -/

/-- The package constants of lines 20-33, as parameters. -/
structure Config where
  nOfResources : Nat
  minResQty : Int
  maxResQty : Int
  nOfProcesses : Nat
  minAssignedRes : Int
  maxAssignedRes : Int
  minTotalRes : Int
  maxTotalRes : Int
deriving DecidableEq, Repr

/-- The values the constants have in `banker.go`. -/
def sourceConfig : Config :=
  { nOfResources := 20, minResQty := 5, maxResQty := 10, nOfProcesses := 20,
    minAssignedRes := 0, maxAssignedRes := 2, minTotalRes := 4, maxTotalRes := 8 }

/-- How `initRun` ends: the globals are built, the program exits with a status
code (line 81), or there is no run at all because a remainder is taken by
zero. -/
inductive InitRes where
  | built (g : Globals)
  | exited (code : Nat)
  | panicked
deriving DecidableEq, Repr

/-- One draw, `(rand.Int() % (hi - lo + 1)) + lo`, where `x` is the value of
`rand.Int()`; `%` is Go's truncated remainder, the divisor `hi - lo + 1` is a
constant expression, exact, and the addition is the 64-bit addition of the
program. -/
def drawIn (lo hi : Int) (x : Nat) : Int := wrap64 (Int.tmod (x : Int) (hi - lo + 1) + lo)

/-- The largest sum `(x % (hi - lo + 1)) + lo` a draw can form: `hi` when
`lo ≤ hi`, and `lo + (lo - hi - 1) - 1` when the divisor is negative. -/
def drawTop (lo hi : Int) : Int := if 0 ≤ hi - lo + 1 then hi else lo + (lo - hi - 1) - 1

/-- A loop filling `n` entries with draws, `rnd k` being the value returned by
call number `k` of `rand.Int()` and `k` the number of calls made before the
loop (lines 67-69, and the inner loops of lines 74-76 and 87-89). A remainder
by zero panics. -/
def fill (rnd : Nat → Nat) (lo hi : Int) : Nat → Nat → Option (List Int)
  | 0, _ => some []
  | n + 1, k =>
    if hi - lo + 1 = 0 then none
    else (fill rnd lo hi n (k + 1)).map (fun t => drawIn lo hi (rnd k) :: t)

/-- A loop filling `m` rows of `R` entries each (lines 72-77 and 85-90). -/
def fillRows (rnd : Nat → Nat) (lo hi : Int) (R : Nat) : Nat → Nat → Option (List (List Int))
  | 0, _ => some []
  | m + 1, k =>
    match fill rnd lo hi R k with
    | none => none
    | some row => (fillRows rnd lo hi R m (k + R)).map (fun t => row :: t)

/-- The entry `m[i][j]` of a matrix (`0` outside it). -/
def entryAt (m : List (List Int)) (i j : Nat) : Int := (m.getD i []).getD j 0

/-- The function `initRun` (lines 55-99) for the constants `c` and the random
source `rnd`. -/
def initRun (c : Config) (rnd : Nat → Nat) : InitRes :=
  match fill rnd c.minResQty c.maxResQty c.nOfResources 0 with
  | none => .panicked
  | some available =>
    match fillRows rnd c.minAssignedRes c.maxAssignedRes c.nOfResources c.nOfProcesses
        c.nOfResources with
    | none => .panicked
    | some assigned =>
      if c.minTotalRes < c.maxAssignedRes then .exited 1
      else
        match fillRows rnd c.minTotalRes c.maxTotalRes c.nOfResources c.nOfProcesses
            (c.nOfResources + c.nOfProcesses * c.nOfResources) with
        | none => .panicked
        | some total =>
          .built
            { available := available
              assigned := assigned
              total := total
              necessary := (List.range c.nOfProcesses).map fun i =>
                (List.range c.nOfResources).map fun j =>
                  wrap64 (entryAt total i j - entryAt assigned i j)
              safeSequence := [] }

/-- A small configuration: two processes, two resource types. -/
def smallConfig : Config :=
  { nOfResources := 2, minResQty := 1, maxResQty := 3, nOfProcesses := 2,
    minAssignedRes := 0, maxAssignedRes := 2, minTotalRes := 2, maxTotalRes := 5 }

/-- A configuration that `initRun` rejects: a process may hold more than it
ever uses. -/
def badConfig : Config :=
  { nOfResources := 2, minResQty := 1, maxResQty := 3, nOfProcesses := 2,
    minAssignedRes := 0, maxAssignedRes := 2, minTotalRes := 1, maxTotalRes := 5 }

/-- The configuration `smallConfig` with the range of `assigned` inverted. -/
def invertedConfig : Config := { smallConfig with minAssignedRes := 10, maxAssignedRes := 0 }

/-- The configuration `smallConfig` with the range of `available` inverted and
wide: the sum of a draw can exceed `2^63 - 1`. -/
def wideConfig : Config :=
  { smallConfig with minResQty := 4611686018427387904, maxResQty := -4611686018427387904 }

/-- The configuration `smallConfig` with an empty range for `available`: the
divisor `maxResQty - minResQty + 1` is zero. -/
def emptyConfig : Config := { smallConfig with minResQty := 1, maxResQty := 0 }

/-- The state `initRun` builds for `smallConfig` when call number `k` of the
random source returns `7 * k + 3`. -/
def smallBuilt : Globals :=
  { available := [1, 2], assigned := [[2, 0], [1, 2]], total := [[3, 2], [5, 4]],
    necessary := [[1, 2], [4, 2]], safeSequence := [] }

/-- Sharper bound on the number of visits still to be made at index `p` with
`dc` processes done and `fc` failures counted in the current pass, for
`P ≥ 2`. -/
def phiN (P p dc fc : Nat) : Nat :=
  if P ≤ dc then 1
  else (P - p) + P * (P - dc - 1) + (if fc = p then 0 else P)

/-- Sharper bound on the number of visits still to be made from frame `s`. -/
def phi (P : Nat) (s : Frame) : Nat := phiN P s.p s.doneCounter s.failCounter

/-- After the first completion, as long as the current pass has completed
nothing, the last process is done or does not fit: it was met at the end of
the previous pass. -/
def LastBlocked (P R : Nat) (g0 : Globals) (seq : List Nat) (s : Frame) : Prop :=
  s.failCounter = s.p → 0 < s.doneCounter →
    P - 1 ∈ seq ∨ ¬ Fits g0 R (poolAfter g0 (pool0 g0) seq) (P - 1)

/-! ## The conventional formulation of the safety search -/

theorem forall_lt_succ_iff (n : Nat) (Q : Nat → Prop) :
    (∀ r, r < n + 1 → Q r) ↔ Q 0 ∧ ∀ r, r < n → Q (r + 1) := by
  constructor
  · intro h
    exact ⟨h 0 (by omega), fun r hr => h (r + 1) (by omega)⟩
  · rintro ⟨h0, hs⟩ r hr
    cases r with
    | zero => exact h0
    | succ k => exact hs k (by omega)

theorem isSufficient_eq (need : List Int) :
    ∀ (avail : List Int) (acc : Bool), need.length ≤ avail.length →
      isSufficient need avail acc =
        some (acc && decide (∀ r, r < need.length → need.getD r 0 ≤ avail.getD r 0)) := by
  induction need with
  | nil => intro avail acc _; simp [isSufficient]
  | cons n ns ih =>
    intro avail acc h
    cases avail with
    | nil => simp at h
    | cons a as =>
      have h2 : ns.length ≤ as.length := by simpa using h
      rw [isSufficient, ih as _ h2]
      congr 1
      rw [Bool.eq_iff_iff]
      simp only [Bool.and_eq_true, decide_eq_true_eq]
      rw [List.length_cons, forall_lt_succ_iff]
      by_cases hna : n > a
      · have : ¬ n ≤ a := by omega
        simp [hna, this]
      · have : n ≤ a := by omega
        simp [hna, this]

theorem isSufficient_spec (need avail : List Int) (h : need.length ≤ avail.length) :
    ∃ b, isSufficient need avail true = some b ∧
      (b = true ↔ ∀ r, r < need.length → need.getD r 0 ≤ avail.getD r 0) := by
  refine ⟨_, isSufficient_eq need avail true h, ?_⟩
  simp

theorem freeResources_eq (avail : List Int) :
    ∀ (qs : List Int), qs.length ≤ avail.length →
      ∃ out, freeResources avail qs = some out ∧ out.length = avail.length ∧
        ∀ r, out.getD r 0 =
          if r < qs.length then wrap64 (avail.getD r 0 + qs.getD r 0) else avail.getD r 0 := by
  induction avail with
  | nil =>
    intro qs h
    cases qs with
    | nil => exact ⟨[], by simp [freeResources]⟩
    | cons q qs => simp at h
  | cons a as ih =>
    intro qs h
    cases qs with
    | nil => exact ⟨a :: as, by simp [freeResources]⟩
    | cons q qs =>
      have h2 : qs.length ≤ as.length := by simpa using h
      obtain ⟨out, he, hl, hg⟩ := ih qs h2
      refine ⟨wrap64 (a + q) :: out, by simp [freeResources, he], by simp [hl], ?_⟩
      intro r
      cases r with
      | zero => simp
      | succ k => simpa using hg k

/-! ## Replay -/

theorem poolAfter_nil (g : Globals) (pool : Nat → Int) : poolAfter g pool [] = pool := rfl

theorem poolAfter_cons (g : Globals) (pool : Nat → Int) (p : Nat) (rest : List Nat) :
    poolAfter g (release g p pool) rest = poolAfter g pool (p :: rest) := rfl

theorem poolAfter_append (g : Globals) (a b : List Nat) :
    ∀ pool : Nat → Int, poolAfter g (poolAfter g pool a) b = poolAfter g pool (a ++ b) := by
  induction a with
  | nil => intro pool; rfl
  | cons p rest ih =>
    intro pool
    rw [List.cons_append, ← poolAfter_cons, ← poolAfter_cons, ih]

theorem poolAfter_concat (g : Globals) (pool : Nat → Int) (seq : List Nat) (p : Nat) :
    poolAfter g pool (seq ++ [p]) = release g p (poolAfter g pool seq) := by
  rw [← poolAfter_append]
  rfl

theorem release_of_row {g : Globals} {p : Nat} {row : List Int}
    (h : g.assigned[p]? = some row) (pool : Nat → Int) (r : Nat) :
    release g p pool r =
      if r < row.length then wrap64 (pool r + row.getD r 0) else pool r := by
  simp [release, held, h]

theorem replay_append (g : Globals) (R : Nat) (a b : List Nat) :
    ∀ pool : Nat → Int,
      replay g R pool (a ++ b) = (replay g R pool a && replay g R (poolAfter g pool a) b) := by
  induction a with
  | nil => intro pool; simp [replay, poolAfter_nil]
  | cons p rest ih =>
    intro pool
    rw [List.cons_append, replay, replay, ih, poolAfter_cons, Bool.and_assoc]

/-! ## The loop invariant -/

theorem advance_g (s : Frame) : (advance s).g = s.g := by
  unfold advance; split <;> rfl

theorem advance_done (s : Frame) : (advance s).done = s.done := by
  unfold advance; split <;> rfl

theorem advance_doneCounter (s : Frame) : (advance s).doneCounter = s.doneCounter := by
  unfold advance; split <;> rfl

theorem advance_p (s : Frame) :
    (advance s).p = if s.p + 1 = s.g.necessary.length then 0 else s.p + 1 := by
  unfold advance; split <;> rfl

theorem advance_failCounter (s : Frame) :
    (advance s).failCounter = if s.p + 1 = s.g.necessary.length then 0 else s.failCounter := by
  unfold advance; split <;> rfl

theorem Inv.mem_lt {P R : Nat} {g0 : Globals} {seq : List Nat} {s : Frame}
    (hi : Inv P R g0 seq s) {i : Nat} (h : i ∈ seq) : i < P := by
  have h1 := (hi.doneIff i).2 h
  have h2 : i < s.done.length := by
    by_contra hge
    rw [List.getElem?_eq_none (by omega)] at h1
    exact absurd h1 (by simp)
  rw [hi.doneLen] at h2
  exact h2

theorem nodup_perm_range {P : Nat} {seq : List Nat} (hn : seq.Nodup)
    (hlt : ∀ i ∈ seq, i < P) (hlen : P ≤ seq.length) : seq.Perm (List.range P) := by
  have hsub : seq ⊆ List.range P := fun i hi => List.mem_range.2 (hlt i hi)
  have hsp : List.Subperm seq (List.range P) := List.subperm_of_subset hn hsub
  exact hsp.perm_of_length_le (by simpa using hlen)

theorem Inv.length_le {P R : Nat} {g0 : Globals} {seq : List Nat} {s : Frame}
    (hi : Inv P R g0 seq s) : seq.length ≤ P := by
  have hsub : seq ⊆ List.range P := fun i h => List.mem_range.2 (hi.mem_lt h)
  have := (List.subperm_of_subset hi.nodup hsub).length_le
  simpa using this

theorem Inv.length_lt_of_not_mem {P R : Nat} {g0 : Globals} {seq : List Nat} {s : Frame}
    (hi : Inv P R g0 seq s) {i : Nat} (hiP : i < P) (h : i ∉ seq) : seq.length < P := by
  by_contra hge
  have hp := nodup_perm_range hi.nodup (fun j hj => hi.mem_lt hj) (by omega)
  exact h (hp.mem_iff.2 (List.mem_range.2 hiP))

theorem mu_step (P d : Nat) (h : d + 1 < P) :
    P * (P - d - 1) = P * (P - (d + 1) - 1) + P := by
  have e : P - d - 1 = (P - (d + 1) - 1) + 1 := by omega
  rw [e, Nat.mul_succ]

/-- What a visit does on a frame satisfying the invariant: it completes
process `s.p`, or returns `true`, or returns `false`, or counts a failure. -/
theorem visit_cases {P R : Nat} {g0 : Globals} {seq : List Nat} {s : Frame}
    (hc : Consistent P R g0) (hi : Inv P R g0 seq s) :
    (s.p ∉ seq ∧ Fits g0 R (poolAfter g0 (pool0 g0) seq) s.p ∧
      ∃ avail, visit P s = .next (advance
          { s with
            g := { s.g with
                   available := avail
                   safeSequence := s.g.safeSequence ++ [procName s.p] }
            done := s.done.set s.p true
            doneCounter := s.doneCounter + 1 }) ∧
        Inv P R g0 (seq ++ [s.p]) (advance
          { s with
            g := { s.g with
                   available := avail
                   safeSequence := s.g.safeSequence ++ [procName s.p] }
            done := s.done.set s.p true
            doneCounter := s.doneCounter + 1 })) ∨
    (¬ (s.p ∉ seq ∧ Fits g0 R (poolAfter g0 (pool0 g0) seq) s.p) ∧
      ((P ≤ s.doneCounter ∧ visit P s = .ret true s.g) ∨
       (s.doneCounter < P ∧ P ≤ s.failCounter + 1 ∧ visit P s = .ret false s.g) ∨
       (s.doneCounter < P ∧ s.failCounter + 1 < P ∧
          visit P s = .next (advance { s with failCounter := s.failCounter + 1 }) ∧
          Inv P R g0 seq (advance { s with failCounter := s.failCounter + 1 })))) := by
  obtain ⟨hav, hnl, hal, hnr, har⟩ := hc
  have hp := hi.pLt
  have hpn : s.p < g0.necessary.length := by omega
  have hpa : s.p < g0.assigned.length := by omega
  have hpd : s.p < s.done.length := by rw [hi.doneLen]; exact hp
  have hrowlen : (g0.necessary[s.p]).length = R := hnr _ (List.getElem_mem _)
  have hheldlen : (g0.assigned[s.p]).length = R := har _ (List.getElem_mem _)
  have hnec : s.g.necessary[s.p]? = some g0.necessary[s.p] := by
    rw [hi.nec]; exact List.getElem?_eq_getElem hpn
  have hasg : s.g.assigned[s.p]? = some g0.assigned[s.p] := by
    rw [hi.asg]; exact List.getElem?_eq_getElem hpa
  have hneed : ∀ r, need g0 s.p r = (g0.necessary[s.p]).getD r 0 := by
    intro r; simp [need, hpn]
  have hheld : ∀ r, held g0 s.p r = (g0.assigned[s.p]).getD r 0 := by
    intro r; simp [held, hpa]
  obtain ⟨suff, hsuff, hsuffiff⟩ := isSufficient_spec g0.necessary[s.p] s.g.available
    (by rw [hrowlen, hi.availLen])
  have hfit : (∀ r, r < (g0.necessary[s.p]).length →
      (g0.necessary[s.p]).getD r 0 ≤ s.g.available.getD r 0) ↔
      Fits g0 R (poolAfter g0 (pool0 g0) seq) s.p := by
    rw [hrowlen]
    unfold Fits
    constructor
    · intro h r hr; rw [hneed, ← hi.avail]; exact h r hr
    · intro h r hr; rw [← hneed, hi.avail]; exact h r hr
  have hdone : s.done[s.p]? = some s.done[s.p] := List.getElem?_eq_getElem hpd
  have hdmem : s.done[s.p] = true ↔ s.p ∈ seq := by
    rw [← hi.doneIff, hdone]; simp
  obtain ⟨out, hfree, houtlen, hout⟩ := freeResources_eq s.g.available g0.assigned[s.p]
    (by rw [hheldlen, hi.availLen])
  by_cases hgo : s.p ∉ seq ∧ Fits g0 R (poolAfter g0 (pool0 g0) seq) s.p
  · left
    refine ⟨hgo.1, hgo.2, out, ?_, ?_⟩
    · have hd : s.done[s.p] = false := by
        cases hb : s.done[s.p] with
        | false => rfl
        | true => exact absurd (hdmem.1 hb) hgo.1
      have hs : suff = true := hsuffiff.2 (hfit.2 hgo.2)
      simp only [visit, hnec, hsuff, hdone, hd, hs, hasg, hfree]
      simp
    · have hnl2 : s.g.necessary.length = P := by rw [hi.nec]; exact hnl
      refine
        { asg := by rw [advance_g]; exact hi.asg
          nec := by rw [advance_g]; exact hi.nec
          tot := by rw [advance_g]; exact hi.tot
          recd := by rw [advance_g]; simp [hi.recd]
          availLen := by rw [advance_g]; simp [houtlen, hi.availLen]
          avail := ?_
          pLt := ?_
          doneLen := by rw [advance_done]; simp [hi.doneLen]
          doneIff := ?_
          nodup := ?_
          cnt := by rw [advance_doneCounter]; simp [hi.cnt]
          fcLe := ?_
          ok := ?_
          stuck := ?_ }
      · intro r
        rw [advance_g]
        show out.getD r 0 = _
        rw [hout, hi.avail, poolAfter_concat,
          release_of_row (List.getElem?_eq_getElem hpa)]
      · rw [advance_p]
        show (if s.p + 1 = s.g.necessary.length then 0 else s.p + 1) < P
        split <;> omega
      · intro i
        rw [advance_done]
        show (s.done.set s.p true)[i]? = some true ↔ _
        by_cases hip : s.p = i
        · subst hip
          simp [List.getElem?_set_self hpd]
        · rw [List.getElem?_set_ne hip, hi.doneIff]
          simp [Ne.symm hip]
      · rw [List.nodup_append]
        refine ⟨hi.nodup, List.nodup_singleton _, ?_⟩
        intro a ha hb
        rw [List.mem_singleton] at hb
        subst hb
        exact hgo.1 ha
      · rw [advance_p, advance_failCounter]
        show (if s.p + 1 = s.g.necessary.length then 0 else s.failCounter) ≤
          (if s.p + 1 = s.g.necessary.length then 0 else s.p + 1)
        have := hi.fcLe
        split <;> omega
      · rw [replay_append, hi.ok]
        simp [replay, hgo.2]
      · rw [advance_p, advance_failCounter]
        dsimp only
        have := hi.fcLe
        by_cases hw : s.p + 1 = s.g.necessary.length
        · simp only [if_pos hw]
          intro _ i hi0; omega
        · simp only [if_neg hw]
          intro h; omega
  · right
    refine ⟨hgo, ?_⟩
    have hcond : (!s.done[s.p] && suff) = false := by
      cases hb : s.done[s.p] with
      | true => simp
      | false =>
        have hnot : s.p ∉ seq := fun h => by
          have := hdmem.2 h; rw [hb] at this; exact absurd this (by simp)
        have : ¬ Fits g0 R (poolAfter g0 (pool0 g0) seq) s.p := fun h => hgo ⟨hnot, h⟩
        cases hsf : suff with
        | false => simp
        | true => exact absurd (hfit.1 (hsuffiff.1 hsf)) this
    have hv : visit P s =
        if s.doneCounter ≥ P then .ret true s.g
        else if s.failCounter + 1 ≥ P then .ret false s.g
        else .next (advance { s with failCounter := s.failCounter + 1 }) := by
      simp only [visit, hnec, hsuff, hdone, Bool.true_and, hcond]
      simp
    by_cases h1 : P ≤ s.doneCounter
    · left
      exact ⟨h1, by rw [hv, if_pos h1]⟩
    · right
      by_cases h2 : P ≤ s.failCounter + 1
      · left
        exact ⟨by omega, h2, by rw [hv, if_neg h1, if_pos h2]⟩
      · right
        refine ⟨by omega, by omega, by rw [hv, if_neg h1, if_neg h2], ?_⟩
        have hnl2 : s.g.necessary.length = P := by rw [hi.nec]; exact hnl
        refine
          { asg := by rw [advance_g]; exact hi.asg
            nec := by rw [advance_g]; exact hi.nec
            tot := by rw [advance_g]; exact hi.tot
            recd := by rw [advance_g]; exact hi.recd
            availLen := by rw [advance_g]; exact hi.availLen
            avail := by rw [advance_g]; exact hi.avail
            pLt := ?_
            doneLen := by rw [advance_done]; exact hi.doneLen
            doneIff := by rw [advance_done]; exact hi.doneIff
            nodup := hi.nodup
            cnt := by rw [advance_doneCounter]; exact hi.cnt
            fcLe := ?_
            ok := hi.ok
            stuck := ?_ }
        · rw [advance_p]
          show (if s.p + 1 = s.g.necessary.length then 0 else s.p + 1) < P
          split <;> omega
        · rw [advance_p, advance_failCounter]
          show (if s.p + 1 = s.g.necessary.length then 0 else s.failCounter + 1) ≤
            (if s.p + 1 = s.g.necessary.length then 0 else s.p + 1)
          have := hi.fcLe
          split <;> omega
        · rw [advance_p, advance_failCounter]
          dsimp only
          by_cases hw : s.p + 1 = s.g.necessary.length
          · simp only [if_pos hw]
            intro _ i hi0; omega
          · simp only [if_neg hw]
            intro h i hi1
            have hfp : s.failCounter = s.p := by omega
            by_cases hip : i = s.p
            · subst hip
              by_cases hm : s.p ∈ seq
              · exact Or.inl hm
              · exact Or.inr (fun hf => hgo ⟨hm, hf⟩)
            · exact hi.stuck hfp i (by omega)

theorem muN_done (P p dc fc : Nat) (hp : p < P) (hfc : fc ≤ p) (hdc : dc + 1 ≤ P) :
    muN P (if p + 1 = P then 0 else p + 1) (dc + 1) (if p + 1 = P then 0 else fc) <
      muN P p dc fc := by
  unfold muN
  by_cases h1 : P ≤ dc + 1
  · rw [if_pos h1, if_neg (show ¬ P ≤ dc by omega)]
    omega
  · have hs := mu_step P dc (by omega)
    rw [if_neg h1, if_neg (show ¬ P ≤ dc by omega)]
    by_cases hw : p + 1 = P
    · simp only [if_pos hw]
      split_ifs <;> omega
    · simp only [if_neg hw]
      split_ifs <;> omega

theorem muN_fail (P p dc fc : Nat) (hp : p < P) (hdc : dc < P) (hf : fc + 1 < P) :
    muN P (if p + 1 = P then 0 else p + 1) dc (if p + 1 = P then 0 else fc + 1) <
      muN P p dc fc := by
  unfold muN
  rw [if_neg (show ¬ P ≤ dc by omega)]
  by_cases hw : p + 1 = P
  · simp only [if_pos hw]
    split_ifs <;> omega
  · simp only [if_neg hw]
    split_ifs <;> omega

theorem entry_inv {P R : Nat} {g : Globals} (hP : 1 ≤ P) (hc : Consistent P R g) :
    Inv P R g [] (entry P g) :=
  { asg := rfl
    nec := rfl
    tot := rfl
    recd := by simp [entry]
    availLen := hc.1
    avail := by intro r; simp [entry, poolAfter, pool0]
    pLt := by simp only [entry]; omega
    doneLen := by simp [entry]
    doneIff := by
      intro i
      simp only [entry, List.getElem?_replicate]
      split <;> simp
    nodup := List.nodup_nil
    cnt := rfl
    fcLe := Nat.le_refl _
    ok := rfl
    stuck := by intro _ i hi; simp [entry] at hi }

theorem run_final {P R : Nat} {g0 : Globals} (hc : Consistent P R g0) :
    ∀ (fuel : Nat) (seq : List Nat) (s : Frame), Inv P R g0 seq s →
      ∀ (b : Bool) (e : Option String) (g : Globals), run P fuel s = .returned b e g →
        e = none ∧ ∃ seq', Final P R g0 b g seq' := by
  intro fuel
  induction fuel with
  | zero => intro seq s _ b e g h; simp [run] at h
  | succ n ih =>
    intro seq s hi b e g h
    rw [run] at h
    have base : ∀ b', (b' = true → P ≤ seq.length) →
        (b' = false → seq.length < P ∧
          ∀ i, i < P → i ∈ seq ∨ ¬ Fits g0 R (poolAfter g0 (pool0 g0) seq) i) →
        Final P R g0 b' s.g seq := fun b' h1 h2 =>
      { asg := hi.asg, nec := hi.nec, tot := hi.tot, recd := hi.recd
        availLen := hi.availLen, avail := hi.avail, nodup := hi.nodup
        lt := fun i h => hi.mem_lt h, ok := hi.ok, whenSafe := h1, whenUnsafe := h2 }
    rcases visit_cases hc hi with ⟨_, _, avail, hv, hi'⟩ | ⟨hgo, hrest⟩
    · rw [hv] at h
      exact ih _ _ hi' b e g h
    · rcases hrest with ⟨hdc, hv⟩ | ⟨hdc, hfc, hv⟩ | ⟨_, _, hv, hi'⟩
      · rw [hv] at h
        simp only [Res.returned.injEq] at h
        obtain ⟨rfl, rfl, rfl⟩ := h
        refine ⟨rfl, seq, base true (fun _ => by rw [← hi.cnt]; exact hdc) (by simp)⟩
      · rw [hv] at h
        simp only [Res.returned.injEq] at h
        obtain ⟨rfl, rfl, rfl⟩ := h
        refine ⟨rfl, seq, base false (by simp) (fun _ => ⟨by rw [← hi.cnt]; exact hdc, ?_⟩)⟩
        intro i hiP
        have hfp : s.failCounter = s.p := by have := hi.fcLe; have := hi.pLt; omega
        by_cases hip : i = s.p
        · subst hip
          by_cases hm : s.p ∈ seq
          · exact Or.inl hm
          · exact Or.inr (fun hf => hgo ⟨hm, hf⟩)
        · exact hi.stuck hfp i (by have := hi.fcLe; have := hi.pLt; omega)
      · rw [hv] at h
        exact ih _ _ hi' b e g h

theorem run_returns {P R : Nat} {g0 : Globals} (hc : Consistent P R g0) :
    ∀ (fuel : Nat) (seq : List Nat) (s : Frame), Inv P R g0 seq s → mu P s ≤ fuel →
      ∃ b g, run P fuel s = .returned b none g := by
  intro fuel
  induction fuel with
  | zero =>
    intro seq s hi h
    have : 0 < mu P s := by
      unfold mu muN; split <;> omega
    omega
  | succ n ih =>
    intro seq s hi h
    have hnl : s.g.necessary.length = P := by rw [hi.nec]; exact hc.2.1
    rw [run]
    rcases visit_cases hc hi with ⟨_, _, avail, hv, hi'⟩ | ⟨hgo, hrest⟩
    · rw [hv]
      refine ih _ _ hi' ?_
      have hlen := hi'.length_le
      have hd := muN_done P s.p s.doneCounter s.failCounter hi.pLt hi.fcLe
        (by rw [hi.cnt]; simpa using hlen)
      have : mu P (advance
          { s with
            g := { s.g with
                   available := avail
                   safeSequence := s.g.safeSequence ++ [procName s.p] }
            done := s.done.set s.p true
            doneCounter := s.doneCounter + 1 }) =
          muN P (if s.p + 1 = P then 0 else s.p + 1) (s.doneCounter + 1)
            (if s.p + 1 = P then 0 else s.failCounter) := by
        unfold mu
        rw [advance_p, advance_failCounter, advance_doneCounter]
        simp only [hnl]
      unfold mu at h
      omega
    · rcases hrest with ⟨_, hv⟩ | ⟨_, _, hv⟩ | ⟨hdc, hfc, hv, hi'⟩
      · exact ⟨true, s.g, by rw [hv]⟩
      · exact ⟨false, s.g, by rw [hv]⟩
      · rw [hv]
        refine ih _ _ hi' ?_
        have hd := muN_fail P s.p s.doneCounter s.failCounter hi.pLt hdc hfc
        have : mu P (advance { s with failCounter := s.failCounter + 1 }) =
            muN P (if s.p + 1 = P then 0 else s.p + 1) s.doneCounter
              (if s.p + 1 = P then 0 else s.failCounter + 1) := by
          unfold mu
          rw [advance_p, advance_failCounter, advance_doneCounter]
          simp only [hnl]
        unfold mu at h
        omega

theorem run_stable (P : Nat) :
    ∀ (n : Nat) (s : Frame) (r : Res), run P n s = r → r ≠ .running →
      ∀ m, n ≤ m → run P m s = r := by
  intro n
  induction n with
  | zero => intro s r h hr; exact absurd h.symm hr
  | succ n ih =>
    intro s r h hr m hm
    obtain ⟨k, rfl⟩ : ∃ k, m = k + 1 := ⟨m - 1, by omega⟩
    rw [run] at h ⊢
    cases hv : visit P s with
    | next s' =>
      rw [hv] at h
      exact ih s' r h hr k (by omega)
    | ret safe g1 => rw [hv] at h; exact h
    | panic => rw [hv] at h; exact h

theorem run_mono (P : Nat) (n : Nat) (s : Frame) (b : Bool) (e : Option String) (g : Globals)
    (h : run P n s = .returned b e g) (m : Nat) (hm : n ≤ m) : run P m s = .returned b e g :=
  run_stable P n s _ h (by simp) m hm

/-! ## Safe orderings -/

theorem getD_nonneg (l : List Int) (h : ∀ x ∈ l, (0 : Int) ≤ x) (r : Nat) : 0 ≤ l.getD r 0 := by
  by_cases hr : r < l.length
  · rw [List.getD_eq_getElem?_getD, List.getElem?_eq_getElem hr]
    exact h _ (List.getElem_mem _)
  · rw [List.getD_eq_getElem?_getD, List.getElem?_eq_none (by omega)]
    simp

theorem NonNeg.held_nonneg {g : Globals} (h : NonNeg g) : HeldNonNeg g := by
  intro p r
  unfold Banker.held
  by_cases hp : p < g.assigned.length
  · rw [List.getD_eq_getElem?_getD g.assigned, List.getElem?_eq_getElem hp]
    exact getD_nonneg _ (h.2.1 _ (List.getElem_mem _)) r
  · rw [List.getD_eq_getElem?_getD g.assigned, List.getElem?_eq_none (by omega)]
    simp

theorem held_nonneg_of_rows {g : Globals} (h : ∀ row ∈ g.assigned, ∀ x ∈ row, (0 : Int) ≤ x) :
    HeldNonNeg g := by
  intro p r
  unfold held
  by_cases hp : p < g.assigned.length
  · rw [List.getD_eq_getElem?_getD g.assigned, List.getElem?_eq_getElem hp]
    exact getD_nonneg _ (h _ (List.getElem_mem _)) r
  · rw [List.getD_eq_getElem?_getD g.assigned, List.getElem?_eq_none (by omega)]
    simp

theorem poolSum_mono_pool (g : Globals) {pool pool' : Nat → Int} (h : ∀ r, pool r ≤ pool' r)
    (seq : List Nat) (r : Nat) : poolSum g pool seq r ≤ poolSum g pool' seq r := by
  unfold poolSum
  have := h r
  omega

theorem poolSum_le_of_subset {g : Globals} (hn : HeldNonNeg g) (pool : Nat → Int)
    {pre seq : List Nat} (hd : pre.Nodup) (hsub : pre ⊆ seq) (r : Nat) :
    poolSum g pool pre r ≤ poolSum g pool seq r := by
  obtain ⟨l, hl, hs⟩ := List.subperm_of_subset hd hsub
  have h1 : (pre.map (fun p => held g p r)).sum = (l.map (fun p => held g p r)).sum :=
    ((hl.map _).sum_eq).symm
  have h2 : (l.map (fun p => held g p r)).sum ≤ (seq.map (fun p => held g p r)).sum := by
    apply List.Sublist.sum_le_sum (hs.map _)
    intro a ha
    obtain ⟨q, _, rfl⟩ := List.mem_map.1 ha
    exact hn q r
  unfold poolSum
  omega

theorem le_poolSum {g : Globals} (hn : HeldNonNeg g) (pool : Nat → Int) (seq : List Nat)
    (r : Nat) : pool r ≤ poolSum g pool seq r := by
  have := poolSum_le_of_subset hn pool List.nodup_nil (List.nil_subset seq) r
  simpa [poolSum] using this

theorem poolSum_concat (g : Globals) (pool : Nat → Int) (seq : List Nat) (p : Nat) (r : Nat) :
    poolSum g pool (seq ++ [p]) r = poolSum g pool seq r + held g p r := by
  simp [poolSum, add_assoc]

theorem wrap64_of_mem (x : Int) (h1 : intMin ≤ x) (h2 : x ≤ intMax) : wrap64 x = x := by
  unfold intMin at h1
  unfold intMax at h2
  unfold wrap64
  omega

theorem held_eq_zero {g : Globals} {p r : Nat} (h : ¬ r < (g.assigned.getD p []).length) :
    held g p r = 0 := by
  unfold held
  rw [List.getD_eq_getElem?_getD (g.assigned.getD p []), List.getElem?_eq_none (by omega)]
  rfl

/-- When no addition can overflow, the pool the program computes is the exact
sum. -/
theorem poolAfter_eq_poolSum {P : Nat} {g : Globals} (hn : HeldNonNeg g) (hroom : Roomy P g) :
    ∀ seq : List Nat, seq.Nodup → (∀ i, i ∈ seq → i < P) →
      poolAfter g (pool0 g) seq = poolSum g (pool0 g) seq := by
  intro seq
  induction seq using List.reverseRecOn with
  | nil => intro _ _; funext r; simp [poolAfter, poolSum]
  | append_singleton l a ih =>
    intro hd hlt
    have hdl : l.Nodup := (List.nodup_append.1 hd).1
    have hltl : ∀ i, i ∈ l → i < P := fun i hi => hlt i (List.mem_append_left _ hi)
    funext r
    rw [poolAfter_concat, ih hdl hltl, poolSum_concat]
    unfold release
    by_cases hr : r < (g.assigned.getD a []).length
    · rw [if_pos hr, ← poolSum_concat]
      apply wrap64_of_mem
      · exact le_trans (hroom r).1 (le_poolSum hn _ _ r)
      · have hsub : l ++ [a] ⊆ List.range P := fun i hi => List.mem_range.2 (hlt i hi)
        exact le_trans (poolSum_le_of_subset hn _ hd hsub r) (hroom r).2
    · rw [if_neg hr, held_eq_zero hr]
      simp

theorem Fits.mono {g : Globals} {R : Nat} {pool pool' : Nat → Int} {p : Nat}
    (h : Fits g R pool p) (hle : ∀ r, pool r ≤ pool' r) : Fits g R pool' p :=
  fun r hr => le_trans (h r hr) (hle r)

theorem release_congr {g g' : Globals} (ha : g'.assigned = g.assigned) (p : Nat)
    (pool : Nat → Int) : release g' p pool = release g p pool := by
  funext r
  simp only [release, held, ha]

theorem replay_congr {g g' : Globals} (ha : g'.assigned = g.assigned)
    (hn : g'.necessary = g.necessary) (R : Nat) (seq : List Nat) :
    ∀ pool : Nat → Int, replay g' R pool seq = replay g R pool seq := by
  have hneed : ∀ p r, need g' p r = need g p r := by intro p r; simp [need, hn]
  induction seq with
  | nil => intro _; rfl
  | cons p rest ih =>
    intro pool
    simp only [replay, Fits, hneed, release_congr ha, ih]

theorem replay_fits_mid {g : Globals} {R : Nat} {pool : Nat → Int} {pre post : List Nat}
    {q : Nat} (h : replay g R pool (pre ++ q :: post) = true) :
    Fits g R (poolAfter g pool pre) q := by
  rw [replay_append] at h
  simp only [replay, Bool.and_eq_true, decide_eq_true_eq] at h
  exact h.2.1

/-- A list replays when each of its processes fits in the pool left by those
before it. -/
theorem replay_of_fits (g : Globals) (R : Nat) (σ : List Nat) :
    ∀ pool : Nat → Int,
      (∀ pre q post, σ = pre ++ q :: post → Fits g R (poolAfter g pool pre) q) →
      replay g R pool σ = true := by
  induction σ with
  | nil => intro _ _; rfl
  | cons a t ih =>
    intro pool h
    simp only [replay, Bool.and_eq_true, decide_eq_true_eq]
    refine ⟨h [] a t rfl, ih _ ?_⟩
    intro pre q post he
    exact h (a :: pre) q post (by rw [he]; rfl)

/-- With the same matrices, no possible overflow and a pool at least as large,
a list that replays on `g` replays on `g'`. -/
theorem replay_transfer {P R : Nat} {g g' : Globals} (ha : g'.assigned = g.assigned)
    (hnec : g'.necessary = g.necessary) (hn : HeldNonNeg g) (hroom : Roomy P g)
    (hroom' : Roomy P g') (hle : ∀ r, pool0 g r ≤ pool0 g' r) {σ : List Nat}
    (hd : σ.Nodup) (hlt : ∀ i, i ∈ σ → i < P) (h : replay g R (pool0 g) σ = true) :
    replay g' R (pool0 g') σ = true := by
  have hheld : ∀ p r, held g' p r = held g p r := by intro p r; simp [held, ha]
  have hn' : HeldNonNeg g' := fun p r => by rw [hheld]; exact hn p r
  have hneed : ∀ p r, need g' p r = need g p r := by intro p r; simp [need, hnec]
  apply replay_of_fits
  intro pre q post he
  have hpd : pre.Nodup := by rw [he] at hd; exact (List.nodup_append.1 hd).1
  have hpl : ∀ i, i ∈ pre → i < P := fun i hi => hlt i (by rw [he]; simp [hi])
  have hfit : Fits g R (poolAfter g (pool0 g) pre) q := replay_fits_mid (he ▸ h)
  rw [poolAfter_eq_poolSum hn hroom pre hpd hpl] at hfit
  rw [poolAfter_eq_poolSum hn' hroom' pre hpd hpl]
  intro r hr
  rw [hneed]
  refine le_trans (hfit r hr) ?_
  have := hle r
  simp only [poolSum, hheld]
  omega

/-- Checking the first `n` resource types is enough to exclude an overflow,
when no vector is longer than `n`. -/
theorem roomy_of_check {P : Nat} {g : Globals} (n : Nat) (hlen : g.available.length ≤ n)
    (hrows : ∀ row ∈ g.assigned, row.length ≤ n)
    (h : ∀ r, r < n → intMin ≤ pool0 g r ∧
      pool0 g r + ((List.range P).map (fun p => held g p r)).sum ≤ intMax) : Roomy P g := by
  intro r
  by_cases hr : r < n
  · exact h r hr
  · have h0 : pool0 g r = 0 := by
      unfold pool0
      rw [List.getD_eq_getElem?_getD, List.getElem?_eq_none (by omega)]
      rfl
    have hz : ∀ p, held g p r = 0 := by
      intro p
      apply held_eq_zero
      by_cases hp : p < g.assigned.length
      · have := hrows (g.assigned.getD p []) (by
          rw [List.getD_eq_getElem?_getD, List.getElem?_eq_getElem hp]
          exact List.getElem_mem _)
        omega
      · rw [List.getD_eq_getElem?_getD, List.getElem?_eq_none (by omega)]
        simp
    have hs : ((List.range P).map (fun p => held g p r)).sum = 0 := by
      apply List.sum_eq_zero
      intro x hx
      obtain ⟨q, _, rfl⟩ := List.mem_map.1 hx
      exact hz q
    rw [h0, hs]
    unfold intMin intMax
    omega

theorem range_sum_nonneg {g : Globals} (hn : HeldNonNeg g) (P r : Nat) :
    0 ≤ ((List.range P).map (fun p => held g p r)).sum := by
  apply List.sum_nonneg
  intro x hx
  obtain ⟨q, _, rfl⟩ := List.mem_map.1 hx
  exact hn q r

theorem roomy_of_twice {P : Nat} {g : Globals} (hn : HeldNonNeg g) (h : RoomyTwice P g) :
    Roomy P g := by
  intro r
  have h0 := range_sum_nonneg hn P r
  have h1 := h r
  constructor <;> omega

/-- Checking the first `n` resource types is enough to exclude an overflow in
two evaluations, when no vector is longer than `n`. -/
theorem twice_of_check {P : Nat} {g : Globals} (n : Nat) (hlen : g.available.length ≤ n)
    (hrows : ∀ row ∈ g.assigned, row.length ≤ n)
    (h : ∀ r, r < n → intMin ≤ pool0 g r ∧
      pool0 g r + 2 * ((List.range P).map (fun p => held g p r)).sum ≤ intMax) :
    RoomyTwice P g := by
  intro r
  by_cases hr : r < n
  · exact h r hr
  · have h0 : pool0 g r = 0 := by
      unfold pool0
      rw [List.getD_eq_getElem?_getD, List.getElem?_eq_none (by omega)]
      rfl
    have hs : ((List.range P).map (fun p => held g p r)).sum = 0 := by
      apply List.sum_eq_zero
      intro x hx
      obtain ⟨q, _, rfl⟩ := List.mem_map.1 hx
      apply held_eq_zero
      by_cases hp : q < g.assigned.length
      · have := hrows (g.assigned.getD q []) (by
          rw [List.getD_eq_getElem?_getD, List.getElem?_eq_getElem hp]
          exact List.getElem_mem _)
        omega
      · rw [List.getD_eq_getElem?_getD, List.getElem?_eq_none (by omega)]
        simp
    rw [h0, hs]
    unfold intMin intMax
    omega

theorem wrap64_le (x : Int) (h : intMin ≤ x) : wrap64 x ≤ x := by
  unfold intMin at h
  unfold wrap64
  omega

theorem le_wrap64 (x : Int) : intMin ≤ wrap64 x := by
  unfold intMin wrap64
  omega

/-- With non-negative `assigned` and a pool of values at least `-2^63`, a list
that replays with the program's additions replays in the integers, from any
pool at least as large. -/
theorem replayExact_of_replay {g : Globals} {R : Nat} (hn : HeldNonNeg g) :
    ∀ (σ : List Nat) (pool pool' : Nat → Int), (∀ r, intMin ≤ pool r) →
      (∀ r, pool r ≤ pool' r) → replay g R pool σ = true →
      replayExact g R pool' σ = true := by
  intro σ
  induction σ with
  | nil => intro _ _ _ _ _; rfl
  | cons a t ih =>
    intro pool pool' hlow hle h
    simp only [replay, Bool.and_eq_true, decide_eq_true_eq] at h
    simp only [replayExact, Bool.and_eq_true, decide_eq_true_eq]
    refine ⟨h.1.mono hle, ih (release g a pool) _ ?_ ?_ h.2⟩
    · intro r
      unfold release
      split
      · exact le_wrap64 _
      · exact hlow r
    · intro r
      have h1 := hle r
      have h2 := hn a r
      have h3 := hlow r
      unfold release
      split
      · have := wrap64_le (pool r + held g a r) (by omega)
        omega
      · omega

theorem replay_iff_fits (g : Globals) (R : Nat) (σ : List Nat) (pool : Nat → Int) :
    replay g R pool σ = true ↔
      ∀ pre q post, σ = pre ++ q :: post → Fits g R (poolAfter g pool pre) q :=
  ⟨fun h _ _ _ he => replay_fits_mid (he ▸ h), replay_of_fits g R σ pool⟩

theorem replayExact_iff_fits (g : Globals) (R : Nat) (σ : List Nat) :
    ∀ pool : Nat → Int, replayExact g R pool σ = true ↔
      ∀ pre q post, σ = pre ++ q :: post → Fits g R (poolSum g pool pre) q := by
  induction σ with
  | nil =>
    intro pool
    simp [replayExact]
  | cons a t ih =>
    intro pool
    have hcons : ∀ pre : List Nat,
        poolSum g (fun r => pool r + held g a r) pre = poolSum g pool (a :: pre) := by
      intro pre
      funext r
      simp [poolSum, add_assoc]
    simp only [replayExact, Bool.and_eq_true, decide_eq_true_eq, ih]
    constructor
    · rintro ⟨h0, ht⟩ pre q post he
      cases pre with
      | nil =>
        simp only [List.nil_append, List.cons.injEq] at he
        obtain ⟨rfl, _⟩ := he
        have : poolSum g pool [] = pool := by funext r; simp [poolSum]
        rw [this]
        exact h0
      | cons b pre' =>
        simp only [List.cons_append, List.cons.injEq] at he
        obtain ⟨rfl, he'⟩ := he
        rw [← hcons]
        exact ht pre' q post he'
    · intro h
      refine ⟨?_, ?_⟩
      · have := h [] a t rfl
        have h0 : poolSum g pool [] = pool := by funext r; simp [poolSum]
        rw [h0] at this
        exact this
      · intro pre q post he
        rw [hcons]
        exact h (a :: pre) q post (by rw [he]; rfl)

/-- When no addition can overflow, replaying with the program's additions and
replaying in the integers agree. -/
theorem replayExact_eq_replay {P R : Nat} {g : Globals} (hn : HeldNonNeg g)
    (hroom : Roomy P g) (σ : List Nat) (hd : σ.Nodup) (hlt : ∀ i, i ∈ σ → i < P) :
    replayExact g R (pool0 g) σ = replay g R (pool0 g) σ := by
  rw [Bool.eq_iff_iff, replayExact_iff_fits, replay_iff_fits]
  have hpre : ∀ pre q post, σ = pre ++ q :: post →
      poolAfter g (pool0 g) pre = poolSum g (pool0 g) pre := by
    intro pre q post he
    apply poolAfter_eq_poolSum hn hroom
    · rw [he] at hd
      exact (List.nodup_append.1 hd).1
    · intro i hi
      exact hlt i (by rw [he]; simp [hi])
  constructor
  · intro h pre q post he
    rw [hpre pre q post he]
    exact h pre q post he
  · intro h pre q post he
    rw [← hpre pre q post he]
    exact h pre q post he

theorem exists_first_outside (seq : List Nat) :
    ∀ σ : List Nat, (∃ q, q ∈ σ ∧ q ∉ seq) →
      ∃ pre q post, σ = pre ++ q :: post ∧ q ∉ seq ∧ ∀ x, x ∈ pre → x ∈ seq := by
  intro σ
  induction σ with
  | nil => rintro ⟨q, hq, _⟩; simp at hq
  | cons a rest ih =>
    rintro ⟨q, hq, hqs⟩
    by_cases ha : a ∈ seq
    · have hq' : q ∈ rest := by
        rcases List.mem_cons.1 hq with h | h
        · subst h; exact absurd ha hqs
        · exact h
      obtain ⟨pre, q', post, he, hq'', hpre⟩ := ih ⟨q, hq', hqs⟩
      refine ⟨a :: pre, q', post, by rw [he]; rfl, hq'', ?_⟩
      intro x hx
      rcases List.mem_cons.1 hx with h | h
      · subst h; exact ha
      · exact hpre x h
    · exact ⟨[], a, rest, rfl, ha, by simp⟩

/-- When `safeState` returns `false`, no ordering of the `P` processes replays. -/
theorem Final.no_safe_order {P R : Nat} {g0 g : Globals} {seq : List Nat}
    (hf : Final P R g0 false g seq) (hn : HeldNonNeg g0) (hroom : Roomy P g0) (σ : List Nat)
    (hσ : σ.Perm (List.range P)) : replay g0 R (pool0 g0) σ = false := by
  obtain ⟨hlen, hstuck⟩ := hf.whenUnsafe rfl
  by_contra hne
  have hrep : replay g0 R (pool0 g0) σ = true := by simpa using hne
  have hex : ∃ q, q ∈ σ ∧ q ∉ seq := by
    by_contra hall
    have hsub : List.range P ⊆ seq := by
      intro i hi
      by_contra hni
      exact hall ⟨i, hσ.mem_iff.2 hi, hni⟩
    have := (List.subperm_of_subset (List.nodup_range P) hsub).length_le
    simp at this
    omega
  obtain ⟨pre, q, post, he, hq, hpre⟩ := exists_first_outside seq σ hex
  have hσn : σ.Nodup := hσ.nodup_iff.2 (List.nodup_range P)
  have hpn : pre.Nodup := by
    rw [he] at hσn
    exact (List.nodup_append.1 hσn).1
  have hqP : q < P := by
    have : q ∈ σ := by rw [he]; simp
    exact List.mem_range.1 (hσ.mem_iff.1 this)
  have hpl : ∀ i, i ∈ pre → i < P := fun i hi => hf.lt i (hpre i hi)
  have hfit : Fits g0 R (poolAfter g0 (pool0 g0) pre) q := replay_fits_mid (he ▸ hrep)
  rw [poolAfter_eq_poolSum hn hroom pre hpn hpl] at hfit
  have hfit' : Fits g0 R (poolAfter g0 (pool0 g0) seq) q := by
    rw [poolAfter_eq_poolSum hn hroom seq hf.nodup hf.lt]
    exact hfit.mono (fun r => poolSum_le_of_subset hn _ hpn hpre r)
  rcases hstuck q hqP with h | h
  · exact hq h
  · exact h hfit'

/-- When `safeState` returns `true`, the completed processes are all of them. -/
theorem Final.perm {P R : Nat} {g0 g : Globals} {seq : List Nat}
    (hf : Final P R g0 true g seq) : seq.Perm (List.range P) :=
  nodup_perm_range hf.nodup hf.lt (hf.whenSafe rfl)

theorem mu_entry (P : Nat) (g : Globals) (hP : 1 ≤ P) : mu P (entry P g) = P * P + 1 := by
  obtain ⟨k, rfl⟩ : ∃ k, P = k + 1 := ⟨P - 1, by omega⟩
  simp only [mu, muN, entry]
  rw [if_neg (by omega)]
  simp only [Nat.sub_zero, Nat.add_sub_cancel, if_true]
  rw [Nat.mul_succ]
  omega

theorem safeState_final {P R : Nat} {g : Globals} (hP : 1 ≤ P) (hc : Consistent P R g)
    {fuel : Nat} {b : Bool} {e : Option String} {g' : Globals}
    (h : safeState P fuel g = .returned b e g') : e = none ∧ ∃ seq, Final P R g b g' seq :=
  run_final hc fuel [] _ (entry_inv hP hc) b e g' h

theorem safeState_returns {P R : Nat} {g : Globals} (hP : 1 ≤ P) (hc : Consistent P R g)
    {fuel : Nat} (hfuel : P * P + 1 ≤ fuel) :
    ∃ b g', safeState P fuel g = .returned b none g' :=
  run_returns hc fuel [] _ (entry_inv hP hc) (by rw [mu_entry P g hP]; exact hfuel)

theorem safeState_of_safe_order {P R : Nat} {g : Globals} (hP : 1 ≤ P)
    (hc : Consistent P R g) (hn : HeldNonNeg g) (hroom : Roomy P g) {σ : List Nat}
    (hσ : σ.Perm (List.range P))
    (hrep : replay g R (pool0 g) σ = true) {fuel : Nat} (hfuel : P * P + 1 ≤ fuel) :
    ∃ g', safeState P fuel g = .returned true none g' := by
  obtain ⟨b, g', h⟩ := safeState_returns hP hc hfuel
  cases b with
  | true => exact ⟨g', h⟩
  | false =>
    obtain ⟨_, seq, hf⟩ := safeState_final hP hc h
    have := hf.no_safe_order hn hroom σ hσ
    rw [hrep] at this
    exact absurd this (by simp)

/-! ## What is recorded, whatever the dimensions -/

theorem SeqInv.after_advance {P : Nat} {prior : List String} {seq : List Nat} {s : Frame}
    (h : SeqInv P prior seq s) : SeqInv P prior seq (advance s) :=
  { recd := by rw [advance_g]; exact h.recd
    doneLen := by rw [advance_done]; exact h.doneLen
    doneIff := by rw [advance_done]; exact h.doneIff
    nodup := h.nodup
    cnt := by rw [advance_doneCounter]; exact h.cnt }

theorem visit_seqInv {P : Nat} {prior : List String} {seq : List Nat} {s : Frame}
    (hi : SeqInv P prior seq s) :
    (∀ s', visit P s = .next s' → ∃ seq', SeqInv P prior seq' s') ∧
    (∀ g, visit P s = .ret true g → g = s.g ∧ P ≤ seq.length) := by
  constructor
  · intro s' hv
    unfold visit at hv
    split at hv
    · exact absurd hv (by simp)
    · split at hv
      · exact absurd hv (by simp)
      · split at hv
        · exact absurd hv (by simp)
        · rename_i d hd
          split at hv
          · rename_i hcond
            split at hv
            · exact absurd hv (by simp)
            · split at hv
              · exact absurd hv (by simp)
              · simp only [Step.next.injEq] at hv
                subst hv
                have hdf : d = false := by
                  cases d with
                  | false => rfl
                  | true => simp at hcond
                subst hdf
                have hpd : s.p < s.done.length := by
                  by_contra hge
                  rw [List.getElem?_eq_none (by omega)] at hd
                  exact absurd hd (by simp)
                have hnot : s.p ∉ seq := by
                  intro hm
                  have := (hi.doneIff s.p).2 hm
                  rw [hd] at this
                  exact absurd this (by simp)
                refine ⟨seq ++ [s.p], SeqInv.after_advance ?_⟩
                exact
                  { recd := by simp [hi.recd]
                    doneLen := by simp [hi.doneLen]
                    doneIff := by
                      intro i
                      show (s.done.set s.p true)[i]? = some true ↔ _
                      by_cases hip : s.p = i
                      · subst hip
                        simp [List.getElem?_set_self hpd]
                      · rw [List.getElem?_set_ne hip, hi.doneIff]
                        simp [Ne.symm hip]
                    nodup := by
                      rw [List.nodup_append]
                      refine ⟨hi.nodup, List.nodup_singleton _, ?_⟩
                      intro a ha hb
                      rw [List.mem_singleton] at hb
                      subst hb
                      exact hnot ha
                    cnt := by simp [hi.cnt] }
          · split at hv
            · exact absurd hv (by simp)
            · split at hv
              · exact absurd hv (by simp)
              · simp only [Step.next.injEq] at hv
                subst hv
                exact ⟨seq, SeqInv.after_advance
                  { recd := hi.recd, doneLen := hi.doneLen, doneIff := hi.doneIff
                    nodup := hi.nodup, cnt := hi.cnt }⟩
  · intro g hv
    unfold visit at hv
    split at hv
    · exact absurd hv (by simp)
    · split at hv
      · exact absurd hv (by simp)
      · split at hv
        · exact absurd hv (by simp)
        · split at hv
          · split at hv
            · exact absurd hv (by simp)
            · split at hv
              · exact absurd hv (by simp)
              · exact absurd hv (by simp)
          · split at hv
            · rename_i hdc
              simp only [Step.ret.injEq, true_and] at hv
              exact ⟨hv.symm, by rw [← hi.cnt]; exact hdc⟩
            · split at hv
              · simp at hv
              · exact absurd hv (by simp)

theorem SeqInv.index_lt {P : Nat} {prior : List String} {seq : List Nat} {s : Frame}
    (hi : SeqInv P prior seq s) {i : Nat} (h : i ∈ seq) : i < P := by
  have h1 := (hi.doneIff i).2 h
  have h2 : i < s.done.length := by
    by_contra hge
    rw [List.getElem?_eq_none (by omega)] at h1
    exact absurd h1 (by simp)
  rw [hi.doneLen] at h2
  exact h2

theorem run_seqInv (P : Nat) (prior : List String) :
    ∀ (fuel : Nat) (seq : List Nat) (s : Frame), SeqInv P prior seq s →
      ∀ (e : Option String) (g : Globals), run P fuel s = .returned true e g →
        ∃ seq' : List Nat,
          g.safeSequence = prior ++ seq'.map procName ∧ seq'.Perm (List.range P) := by
  intro fuel
  induction fuel with
  | zero => intro seq s _ e g h; simp [run] at h
  | succ n ih =>
    intro seq s hi e g h
    rw [run] at h
    obtain ⟨hnext, hret⟩ := visit_seqInv hi
    cases hv : visit P s with
    | next s' =>
      rw [hv] at h
      obtain ⟨seq', hi'⟩ := hnext s' hv
      exact ih seq' s' hi' e g h
    | ret b g1 =>
      rw [hv] at h
      simp only [Res.returned.injEq] at h
      obtain ⟨rfl, _, rfl⟩ := h
      obtain ⟨hg, hlen⟩ := hret g1 hv
      subst hg
      exact ⟨seq, hi.recd, nodup_perm_range hi.nodup (fun i hm => hi.index_lt hm) hlen⟩
    | panic => rw [hv] at h; exact absurd h (by simp)

theorem entry_seqInv (P : Nat) (g : Globals) : SeqInv P g.safeSequence [] (entry P g) :=
  { recd := by simp [entry]
    doneLen := by simp [entry]
    doneIff := by
      intro i
      simp only [entry, List.getElem?_replicate]
      split <;> simp
    nodup := List.nodup_nil
    cnt := rfl }

/-! ## Independence from `total` and from the prior content of `safeSequence` -/

theorem advance_rebase (t : List (List Int)) (l : List String) (s : Frame) :
    advance (s.rebase t l) = (advance s).rebase t l := by
  unfold advance
  simp only [Frame.rebase, Globals.rebase]
  split <;> rfl

theorem visit_rebase (P : Nat) (t : List (List Int)) (l : List String) (s : Frame) :
    visit P (s.rebase t l) = (visit P s).rebase t l := by
  unfold visit
  have hn : (s.rebase t l).g.necessary = s.g.necessary := rfl
  have ha : (s.rebase t l).g.available = s.g.available := rfl
  have hs : (s.rebase t l).g.assigned = s.g.assigned := rfl
  have hd : (s.rebase t l).done = s.done := rfl
  have hp : (s.rebase t l).p = s.p := rfl
  have hdc : (s.rebase t l).doneCounter = s.doneCounter := rfl
  have hfc : (s.rebase t l).failCounter = s.failCounter := rfl
  rw [hn, ha, hs, hd, hp, hdc, hfc]
  cases s.g.necessary[s.p]? with
  | none => rfl
  | some need =>
    dsimp only
    cases isSufficient need s.g.available true with
    | none => rfl
    | some suff =>
      dsimp only
      cases s.done[s.p]? with
      | none => rfl
      | some d =>
        dsimp only
        split
        · cases s.g.assigned[s.p]? with
          | none => rfl
          | some held =>
            dsimp only
            cases freeResources s.g.available held with
            | none => rfl
            | some avail =>
              dsimp only [Step.rebase]
              rw [← advance_rebase]
              simp [Frame.rebase, Globals.rebase]
        · split
          · rfl
          · split
            · rfl
            · dsimp only [Step.rebase]
              rw [← advance_rebase]
              rfl

theorem run_rebase (P : Nat) (t : List (List Int)) (l : List String) :
    ∀ (fuel : Nat) (s : Frame), run P fuel (s.rebase t l) = (run P fuel s).rebase t l := by
  intro fuel
  induction fuel with
  | zero => intro s; rfl
  | succ n ih =>
    intro s
    rw [run, run, visit_rebase]
    cases visit P s with
    | next s' => exact ih s'
    | ret b g => rfl
    | panic => rfl

theorem safeState_rebase (P fuel : Nat) (g : Globals) :
    safeState P fuel g = (safeState P fuel g.core).rebase g.total g.safeSequence := by
  unfold safeState
  rw [← run_rebase]
  simp [entry, Frame.rebase, Globals.rebase, Globals.core]

/-! ## Every process blocked at entry -/

theorem run_blocked {P R : Nat} {g0 : Globals} (hc : Consistent P R g0)
    (hb : ∀ p, p < P → ¬ Fits g0 R (pool0 g0) p) :
    ∀ (n : Nat) (s : Frame), Inv P R g0 [] s → s.failCounter = s.p → P - s.p ≤ n →
      run P n s = .returned false none s.g := by
  intro n
  induction n with
  | zero => intro s hi _ h; have := hi.pLt; omega
  | succ n ih =>
    intro s hi hfp hn
    have hnl : s.g.necessary.length = P := by rw [hi.nec]; exact hc.2.1
    rw [run]
    rcases visit_cases hc hi with ⟨_, hfit, _⟩ | ⟨_, hrest⟩
    · rw [poolAfter_nil] at hfit
      exact absurd hfit (hb _ hi.pLt)
    · rcases hrest with ⟨hdc, _⟩ | ⟨_, _, hv⟩ | ⟨_, hfc, hv, hi'⟩
      · have h0 : s.doneCounter = 0 := hi.cnt
        have := hi.pLt
        omega
      · rw [hv]
      · rw [hv]
        have hne : ¬ (s.p + 1 = s.g.necessary.length) := by omega
        have hp' : (advance { s with failCounter := s.failCounter + 1 }).p = s.p + 1 := by
          rw [advance_p]; exact if_neg hne
        have hf' : (advance { s with failCounter := s.failCounter + 1 }).failCounter =
            s.failCounter + 1 := by
          rw [advance_failCounter]; exact if_neg hne
        have := ih _ hi' (by rw [hp', hf', hfp]) (by rw [hp']; omega)
        show run P n (advance { s with failCounter := s.failCounter + 1 }) = _
        rw [this, advance_g]

/-! ## Identifiers are distinct -/

theorem digitChar_value (k : Nat) (hk : k < 10) : (Nat.digitChar k).toNat - 48 = k := by
  interval_cases k <;> rfl

theorem digitsValue_toDigitsCore :
    ∀ (fuel n : Nat) (ds : List Char), n < fuel →
      digitsValue 0 (Nat.toDigitsCore 10 fuel n ds) = digitsValue n ds := by
  intro fuel
  induction fuel with
  | zero => intro n ds h; omega
  | succ f ih =>
    intro n ds h
    rw [Nat.toDigitsCore]
    have hd := digitChar_value (n % 10) (Nat.mod_lt _ (by omega))
    by_cases h0 : n / 10 = 0
    · simp only [h0, if_true]
      have hn : n % 10 = n := Nat.mod_eq_of_lt (by omega)
      rw [hn] at hd
      simp only [digitsValue, List.foldl_cons, hn, Nat.mul_zero, Nat.zero_add, hd]
    · simp only [h0, if_false]
      rw [ih (n / 10) _ (by omega)]
      simp only [digitsValue, List.foldl_cons, hd]
      congr 1
      omega

theorem toString_injective : Function.Injective (fun n : Nat => toString n) := by
  intro m n h
  have h1 : (Nat.toDigits 10 m).asString = (Nat.toDigits 10 n).asString := h
  have h2 : Nat.toDigits 10 m = Nat.toDigits 10 n := by
    have := congrArg String.data h1
    simpa [List.asString] using this
  have hm := digitsValue_toDigitsCore (m + 1) m [] (by omega)
  have hn := digitsValue_toDigitsCore (n + 1) n [] (by omega)
  unfold Nat.toDigits at h2
  rw [h2, hn] at hm
  simpa [digitsValue] using hm.symm

theorem procName_injective : Function.Injective procName := by
  intro m n h
  unfold procName at h
  have h1 : ("P" ++ toString m).data = ("P" ++ toString n).data := by rw [h]
  simp only [String.data_append, List.append_cancel_left_eq] at h1
  exact toString_injective (String.ext h1)

theorem names_injective {prior : List String} {a b : List Nat}
    (h : prior ++ a.map procName = prior ++ b.map procName) : a = b :=
  List.map_injective_iff.2 procName_injective (List.append_cancel_left h)

/-! ## The properties -/

/-- C1, witness validity: on a state with `P ≥ 1` processes and consistent
dimensions, when `safeState` returns `true` the identifiers it recorded (the
final `safeSequence` is the content at entry followed by them) name exactly
one list of processes, and the replay of that list from the original
`available` succeeds: every process fits in the pool at the time it is
scheduled, the pool growing by the `assigned` row of each scheduled process
(added as the program adds it, in 64 bits). When moreover `assigned` is
non-negative and `available` holds values at least `-2^63`, the replay also
succeeds with the rows added in the integers. -/
theorem witness_validity (P R fuel : Nat) (g g' : Globals) (e : Option String)
    (hP : 1 ≤ P) (hc : Consistent P R g) (h : safeState P fuel g = .returned true e g') :
    ∃ seq : List Nat, g'.safeSequence = g.safeSequence ++ seq.map procName ∧
      replay g R (pool0 g) seq = true ∧
      (∀ seq' : List Nat, g'.safeSequence = g.safeSequence ++ seq'.map procName →
        seq' = seq) ∧
      ((∀ row ∈ g.assigned, ∀ x ∈ row, (0 : Int) ≤ x) →
        (∀ r, intMin ≤ g.available.getD r 0) → replayExact g R (pool0 g) seq = true) := by
  obtain ⟨_, seq, hf⟩ := safeState_final hP hc h
  exact ⟨seq, hf.recd, hf.ok, fun seq' h' => names_injective (h'.symm.trans hf.recd),
    fun hn hlow => replayExact_of_replay (held_nonneg_of_rows hn) seq _ _ hlow
      (fun _ => le_refl _) hf.ok⟩

/-- Instance of `witness_validity` on `relay`, whose run records `P1`, `P0`. -/
theorem witness_validity_witness :
    ∃ seq : List Nat, ["P1", "P0"] = relay.safeSequence ++ seq.map procName ∧
      replay relay 1 (pool0 relay) seq = true ∧
      (∀ seq' : List Nat, ["P1", "P0"] = relay.safeSequence ++ seq'.map procName →
        seq' = seq) ∧
      ((∀ row ∈ relay.assigned, ∀ x ∈ row, (0 : Int) ≤ x) →
        (∀ r, intMin ≤ relay.available.getD r 0) →
        replayExact relay 1 (pool0 relay) seq = true) :=
  witness_validity 2 1 4 relay { relay with available := [2], safeSequence := ["P1", "P0"] }
    none (by decide) (by decide) (by decide)

/-- C2, counterexample: on `brim`, a state with consistent dimensions and
non-negative entries, `safeState` returns `false` (the addition of what
process 0 gives back overflows and leaves `available` at `-2^63`), although
the ordering process 1, process 0 replays and so completes every process,
whether the rows are added in 64 bits or in the integers. -/
theorem overflow_hides_safe_order :
    Consistent 2 1 brim ∧ NonNeg brim ∧
    safeState 2 4 brim =
      .returned false none
        { brim with available := [-9223372036854775808], safeSequence := ["P0"] } ∧
    [1, 0].Perm (List.range 2) ∧ replay brim 1 (pool0 brim) [1, 0] = true ∧
    replayExact brim 1 (pool0 brim) [1, 0] = true := by
  decide

/-- C2, amended: on a state with `P ≥ 1`, consistent dimensions, non-negative
entries and no possible overflow (every `available[r]` plus all of
`assigned[0..P-1][r]` is at most `2^63 - 1`), when `safeState` returns `false`
every permutation of the process indices fails the replay (with the rows added
in 64 bits, and with the rows added in the integers, which is then the same);
and when some permutation replays, `safeState` returns `true` (within
`P * P + 1` visits). -/
theorem false_verdict_correct (P R : Nat) (g : Globals) (hP : 1 ≤ P)
    (hc : Consistent P R g) (hn : NonNeg g) (hroom : Roomy P g) :
    (∀ (fuel : Nat) (e : Option String) (g' : Globals),
        safeState P fuel g = .returned false e g' →
        ∀ σ : List Nat, σ.Perm (List.range P) →
          replay g R (pool0 g) σ = false ∧ replayExact g R (pool0 g) σ = false) ∧
    (∀ σ : List Nat, σ.Perm (List.range P) →
        replay g R (pool0 g) σ = true ∨ replayExact g R (pool0 g) σ = true →
        ∀ fuel : Nat, P * P + 1 ≤ fuel → ∃ g', safeState P fuel g = .returned true none g') := by
  have heq : ∀ σ : List Nat, σ.Perm (List.range P) →
      replayExact g R (pool0 g) σ = replay g R (pool0 g) σ := by
    intro σ hσ
    exact replayExact_eq_replay hn.held_nonneg hroom σ (hσ.nodup_iff.2 (List.nodup_range P))
      (fun i hi => List.mem_range.1 (hσ.mem_iff.1 hi))
  constructor
  · intro fuel e g' h σ hσ
    obtain ⟨_, seq, hf⟩ := safeState_final hP hc h
    have := hf.no_safe_order hn.held_nonneg hroom σ hσ
    exact ⟨this, by rw [heq σ hσ]; exact this⟩
  · intro σ hσ hrep fuel hfuel
    have hrep' : replay g R (pool0 g) σ = true := by
      rcases hrep with h | h
      · exact h
      · rw [← heq σ hσ]; exact h
    exact safeState_of_safe_order hP hc hn.held_nonneg hroom hσ hrep' hfuel

/-- Instance of `false_verdict_correct` on `stalled` (first part) and on
`relay` (second part). -/
theorem false_verdict_correct_witness :
    (replay stalled 1 (pool0 stalled) [0, 1] = false ∧
      replayExact stalled 1 (pool0 stalled) [0, 1] = false) ∧
    ∃ g', safeState 2 5 relay = .returned true none g' :=
  ⟨(false_verdict_correct 2 1 stalled (by decide) (by decide) (by decide)
      (roomy_of_check 1 (by decide) (by decide) (by decide))).1 4 none
      { stalled with available := [1], safeSequence := ["P0"] } (by decide) [0, 1]
      (List.Perm.refl _),
   (false_verdict_correct 2 1 relay (by decide) (by decide) (by decide)
      (roomy_of_check 1 (by decide) (by decide) (by decide))).2 [1, 0]
      (List.Perm.swap 0 1 []) (Or.inl (by decide)) 5 (by decide)⟩

/-- C3, completeness of the witness: evaluated from an empty `safeSequence`,
when `safeState` returns `true` the recorded `safeSequence` lists the
identifiers of a permutation of the process indices `0 .. P-1`: it is a
permutation of `P0 .. P(P-1)` and no identifier occurs twice in it. -/
theorem witness_complete (P fuel : Nat) (g g' : Globals) (e : Option String)
    (hempty : g.safeSequence = []) (h : safeState P fuel g = .returned true e g') :
    (∃ seq : List Nat, g'.safeSequence = seq.map procName ∧ seq.Perm (List.range P)) ∧
    g'.safeSequence.Perm ((List.range P).map procName) ∧ g'.safeSequence.Nodup := by
  obtain ⟨seq, hrec, hperm⟩ := run_seqInv P g.safeSequence fuel [] _ (entry_seqInv P g) e g' h
  rw [hempty, List.nil_append] at hrec
  refine ⟨⟨seq, hrec, hperm⟩, by rw [hrec]; exact hperm.map _, ?_⟩
  rw [hrec]
  exact (hperm.nodup_iff.2 (List.nodup_range P)).map procName_injective

/-- Instance of `witness_complete` on `relay`. -/
theorem witness_complete_witness :
    (∃ seq : List Nat, ["P1", "P0"] = seq.map procName ∧ seq.Perm (List.range 2)) ∧
    ["P1", "P0"].Perm ((List.range 2).map procName) ∧ ["P1", "P0"].Nodup :=
  witness_complete 2 4 relay { relay with available := [2], safeSequence := ["P1", "P0"] }
    none (by decide) (by decide)

/-- C4, termination: on a state with `P ≥ 1` and consistent dimensions
(whatever the sign of the entries) the scan reaches a `return` within
`P * P + 1` visits: there is one verdict, with a `nil` error, that `safeState`
returns as soon as it is allowed that many visits, and with fewer visits it
either returns that same verdict or is still scanning (it never panics). -/
theorem safeState_total (P R : Nat) (g : Globals) (hP : 1 ≤ P) (hc : Consistent P R g) :
    ∃ (b : Bool) (g' : Globals),
      (∀ fuel : Nat, P * P + 1 ≤ fuel → safeState P fuel g = .returned b none g') ∧
      (∀ fuel : Nat, safeState P fuel g = .running ∨
        safeState P fuel g = .returned b none g') := by
  obtain ⟨b, g', h⟩ := safeState_returns hP hc (Nat.le_refl (P * P + 1))
  refine ⟨b, g', fun fuel hfuel => run_mono P _ _ b none g' h fuel hfuel, ?_⟩
  intro fuel
  by_cases hr : safeState P fuel g = .running
  · exact Or.inl hr
  · right
    by_cases hle : fuel ≤ P * P + 1
    · have := run_stable P fuel _ _ rfl hr (P * P + 1) hle
      exact this.symm.trans h
    · exact run_mono P _ _ b none g' h fuel (by omega)

/-- Instance of `safeState_total` on `relay`. -/
theorem safeState_total_witness :
    ∃ (b : Bool) (g' : Globals),
      (∀ fuel : Nat, 2 * 2 + 1 ≤ fuel → safeState 2 fuel relay = .returned b none g') ∧
      (∀ fuel : Nat, safeState 2 fuel relay = .running ∨
        safeState 2 fuel relay = .returned b none g') :=
  safeState_total 2 1 relay (by decide) (by decide)

/-- C5, counterexample: on the scenario of the specification `safeState`
returns `false`, not `true`. -/
theorem textbook_not_safe :
    safeState 3 6 textbook =
      .returned false none { textbook with available := [5, 3, 2], safeSequence := ["P1"] } := by
  decide

/-- C5, amended: on the scenario of the specification `safeState` returns
`false` with process 1 the only process completed (`available` has become
`[5, 3, 2]`), and indeed no ordering of the three processes replays. -/
theorem textbook_verdict :
    (∀ fuel : Nat, safeState 3 (fuel + 6) textbook =
      .returned false none { textbook with available := [5, 3, 2], safeSequence := ["P1"] }) ∧
    (∀ σ : List Nat, σ.Perm (List.range 3) → replay textbook 3 (pool0 textbook) σ = false) := by
  have h6 : safeState 3 6 textbook =
      .returned false none { textbook with available := [5, 3, 2], safeSequence := ["P1"] } := by
    decide
  refine ⟨fun fuel => run_mono 3 _ _ _ _ _ h6 (fuel + 6) (by omega), ?_⟩
  intro σ hσ
  obtain ⟨_, seq, hf⟩ :=
    safeState_final (P := 3) (R := 3) (by decide) (by decide) h6
  exact hf.no_safe_order (NonNeg.held_nonneg (by decide))
    (roomy_of_check 3 (by decide) (by decide) (by decide)) σ hσ

/-- C6, monotonic unsafety: on a state with `P ≥ 1` and consistent dimensions
in which every process has a resource type whose need exceeds the initial
`available`, `safeState` returns `false` within `P` visits and leaves the
globals as they were: `available` unchanged, nothing appended. -/
theorem all_blocked_returns_false (P R : Nat) (g : Globals) (hP : 1 ≤ P)
    (hc : Consistent P R g)
    (hb : ∀ p, p < P → ∃ r, r < R ∧ pool0 g r < need g p r)
    (fuel : Nat) (hfuel : P ≤ fuel) :
    safeState P fuel g = .returned false none g := by
  have hb' : ∀ p, p < P → ¬ Fits g R (pool0 g) p := by
    intro p hp hfit
    obtain ⟨r, hr, hlt⟩ := hb p hp
    have := hfit r hr
    omega
  exact run_blocked hc hb' fuel (entry P g) (entry_inv hP hc) rfl (by simp [entry]; omega)

/-- Instance of `all_blocked_returns_false` on `starved`. -/
theorem all_blocked_returns_false_witness :
    safeState 2 2 starved = .returned false none starved :=
  all_blocked_returns_false 2 3 starved (by decide) (by decide) (by decide) 2 (by decide)

/-- C7, counterexample: with no process the first visit panics; `safeState`
does not return `true`. -/
theorem zero_processes_cex : safeState 0 1 nobody = .panicked := by
  decide

/-- C7, amended: when `necessary` is empty, `safeState` returns no verdict: its
first visit reads `necessary[0]`, out of range, and the run panics. -/
theorem zero_processes_panic (P fuel : Nat) (g : Globals) (h : g.necessary = []) :
    safeState P (fuel + 1) g = .panicked := by
  simp [safeState, run, visit, entry, h]

/-- Instance of `zero_processes_panic` on `nobody`. -/
theorem zero_processes_panic_witness : safeState 0 (7 + 1) nobody = .panicked :=
  zero_processes_panic 0 7 nobody rfl

/-- C8, single trivially satisfiable process: with `P = 1`, any number `R` of
resource types, `need[0][r] = 0` and `available[r] ≥ 0` for every `r`,
`safeState` returns `true` and has recorded exactly `P0`. -/
theorem single_trivial_process (R fuel : Nat) (g : Globals) (hc : Consistent 1 R g)
    (hneed : ∀ r, r < R → need g 0 r = 0) (hav : ∀ r, r < R → 0 ≤ pool0 g r)
    (hfuel : 2 ≤ fuel) :
    ∃ g', safeState 1 fuel g = .returned true none g' ∧
      g'.safeSequence = g.safeSequence ++ ["P0"] := by
  obtain ⟨b, g', h⟩ := safeState_returns (P := 1) (Nat.le_refl 1) hc (by omega : 1 * 1 + 1 ≤ fuel)
  obtain ⟨_, seq, hf⟩ := safeState_final (Nat.le_refl 1) hc h
  have hfit : ∀ pool : Nat → Int, (∀ r, pool0 g r ≤ pool r) → Fits g R pool 0 := by
    intro pool hle r hr
    rw [hneed r hr]
    exact le_trans (hav r hr) (hle r)
  cases b with
  | false =>
    obtain ⟨hlen, hstuck⟩ := hf.whenUnsafe rfl
    have hnil : seq = [] := List.length_eq_zero.1 (by omega)
    subst hnil
    rcases hstuck 0 (by omega) with h0 | h0
    · simp at h0
    · exact absurd (hfit _ (fun r => by simp [poolAfter])) h0
  | true =>
    refine ⟨g', h, ?_⟩
    have hperm := hf.perm
    have hseq : seq = [0] := by
      have hr : List.range 1 = [0] := rfl
      rw [hr] at hperm
      exact List.perm_singleton.1 hperm
    rw [hf.recd, hseq]
    rfl

/-- Instance of `single_trivial_process` on `lone`. -/
theorem single_trivial_process_witness :
    ∃ g', safeState 1 2 lone = .returned true none g' ∧
      g'.safeSequence = lone.safeSequence ++ ["P0"] :=
  single_trivial_process 2 2 lone (by decide) (by decide) (by decide) (by decide)

/-- C9, counterexample: two program states with the same `available`,
`assigned` and `necessary` and different prior `safeSequence` get the same
verdict and different sequences. -/
theorem prior_sequence_cex :
    safeState 2 4 relay =
      .returned true none { relay with available := [2], safeSequence := ["P1", "P0"] } ∧
    safeState 2 4 { relay with safeSequence := ["P0"] } =
      .returned true none { relay with available := [2], safeSequence := ["P0", "P1", "P0"] } := by
  decide

/-- C9, amended: two evaluations started on program states with identical
`available`, `assigned` and `necessary` end the same way, and when the first
returns, the second returns the same verdict and the same `available`, having
appended the same identifiers; what each reports is its own prior
`safeSequence` followed by these identifiers. -/
theorem determinism_modulo_prior (P fuel : Nat) (g1 g2 : Globals)
    (ha : g1.available = g2.available) (hs : g1.assigned = g2.assigned)
    (hn : g1.necessary = g2.necessary) :
    (safeState P fuel g1 = .panicked → safeState P fuel g2 = .panicked) ∧
    (safeState P fuel g1 = .running → safeState P fuel g2 = .running) ∧
    (∀ (b : Bool) (e : Option String) (f1 : Globals),
      safeState P fuel g1 = .returned b e f1 →
      ∃ suffix : List String, f1.safeSequence = g1.safeSequence ++ suffix ∧
        safeState P fuel g2 =
          .returned b e { f1 with total := g2.total
                                  safeSequence := g2.safeSequence ++ suffix }) := by
  have hcore : g1.core = g2.core := by
    simp only [Globals.core, ha, hs, hn]
  rw [safeState_rebase P fuel g1, safeState_rebase P fuel g2, hcore]
  cases safeState P fuel g2.core with
  | panicked => simp [Res.rebase]
  | running => simp [Res.rebase]
  | returned b0 e0 f0 =>
    refine ⟨by simp [Res.rebase], by simp [Res.rebase], ?_⟩
    intro b e f1 h
    simp only [Res.rebase, Res.returned.injEq] at h
    obtain ⟨rfl, rfl, rfl⟩ := h
    exact ⟨f0.safeSequence, rfl, rfl⟩

/-- Instance of `determinism_modulo_prior` on `relay` with and without a prior
`safeSequence`. -/
theorem determinism_modulo_prior_witness :
    ∃ suffix : List String, ["P1", "P0"] = relay.safeSequence ++ suffix ∧
      safeState 2 4 { relay with safeSequence := ["P0"] } =
        .returned true none
          { relay with available := [2], total := relay.total
                       safeSequence := ["P0"] ++ suffix } :=
  (determinism_modulo_prior 2 4 relay { relay with safeSequence := ["P0"] } rfl rfl rfl).2.2
    true none { relay with available := [2], safeSequence := ["P1", "P0"] } (by decide)

/-- C10, counterexample: on the valid state `stalled`, `safeState` returns
`false`, and called again on the globals it left it returns `true`; and on the
valid state `nearBrim` it returns `true`, and called again on the globals it
left it returns `false`, the addition of the second call overflowing. -/
theorem second_call_cex :
    Consistent 2 1 stalled ∧ NonNeg stalled ∧
    safeState 2 4 stalled =
      .returned false none { stalled with available := [1], safeSequence := ["P0"] } ∧
    safeState 2 4 { stalled with available := [1], safeSequence := ["P0"] } =
      .returned true none { stalled with available := [2], safeSequence := ["P0", "P0", "P1"] } ∧
    Consistent 2 1 nearBrim ∧ NonNeg nearBrim ∧
    safeState 2 4 nearBrim =
      .returned true none
        { nearBrim with available := [9223372036854775807], safeSequence := ["P0", "P1"] } ∧
    safeState 2 4
        { nearBrim with available := [9223372036854775807], safeSequence := ["P0", "P1"] } =
      .returned false none
        { nearBrim with available := [-9223372036854775808],
                        safeSequence := ["P0", "P1", "P0"] } := by
  decide

/-- C10, amended: on a valid state with `P ≥ 1` where two evaluations in a row
cannot overflow (every `available[r]` plus twice all of `assigned[0..P-1][r]`
is at most `2^63 - 1`), when a first call of `safeState` returns `true`, a
second call on the globals as the first call left them returns `true` as
well. -/
theorem second_call_after_safe (P R fuel : Nat) (g g' : Globals) (e : Option String)
    (hP : 1 ≤ P) (hc : Consistent P R g) (hn : NonNeg g) (hroom : RoomyTwice P g)
    (h : safeState P fuel g = .returned true e g') (fuel' : Nat)
    (hfuel : P * P + 1 ≤ fuel') :
    ∃ g'', safeState P fuel' g' = .returned true none g'' := by
  obtain ⟨_, seq, hf⟩ := safeState_final hP hc h
  have hc' : Consistent P R g' := by
    obtain ⟨_, h2, h3, h4, h5⟩ := hc
    refine ⟨hf.availLen, ?_, ?_, ?_, ?_⟩
    · rw [hf.nec]; exact h2
    · rw [hf.asg]; exact h3
    · rw [hf.nec]; exact h4
    · rw [hf.asg]; exact h5
  have hheld : ∀ p r, held g' p r = held g p r := by intro p r; simp [held, hf.asg]
  have hheld' : HeldNonNeg g' := fun p r => by rw [hheld]; exact hn.held_nonneg p r
  have hr1 : Roomy P g := roomy_of_twice hn.held_nonneg hroom
  have hav : ∀ r, pool0 g' r =
      pool0 g r + ((List.range P).map (fun p => held g p r)).sum := by
    intro r
    have h1 : pool0 g' r = poolAfter g (pool0 g) seq r := hf.avail r
    rw [h1, poolAfter_eq_poolSum hn.held_nonneg hr1 seq hf.nodup hf.lt]
    unfold poolSum
    rw [((hf.perm.map (fun p => held g p r)).sum_eq)]
  have hr2 : Roomy P g' := by
    intro r
    have h0 := range_sum_nonneg hn.held_nonneg P r
    have h2 := hroom r
    rw [hav r]
    simp only [hheld]
    constructor <;> omega
  have hrep : replay g' R (pool0 g') seq = true :=
    replay_transfer hf.asg hf.nec hn.held_nonneg hr1 hr2
      (fun r => by have := range_sum_nonneg hn.held_nonneg P r; rw [hav r]; omega)
      hf.nodup hf.lt hf.ok
  exact safeState_of_safe_order hP hc' hheld' hr2 hf.perm hrep hfuel

/-- Instance of `second_call_after_safe` on `relay`. -/
theorem second_call_after_safe_witness :
    ∃ g'', safeState 2 5 { relay with available := [2], safeSequence := ["P1", "P0"] } =
      .returned true none g'' :=
  second_call_after_safe 2 1 4 relay { relay with available := [2], safeSequence := ["P1", "P0"] }
    none (by decide) (by decide) (by decide)
    (fun r => (twice_of_check 1 (by decide) (by decide) (by decide)) r)
    (by decide) 5 (by decide)

/-! ## What a visit does, without any assumption -/

/-- A visit that goes on either took the branch of lines 158-167 (process
`s.p` was pending and sufficient, `avail` is the new content of `available`) or
took the last branch and counted a failure. -/
theorem visit_next_inv {P : Nat} {s s' : Frame} (h : visit P s = .next s') :
    (∃ need held avail, s.g.necessary[s.p]? = some need ∧
        isSufficient need s.g.available true = some true ∧
        s.done[s.p]? = some false ∧ s.g.assigned[s.p]? = some held ∧
        freeResources s.g.available held = some avail ∧
        s' = advance
          { s with
            g := { s.g with
                   available := avail
                   safeSequence := s.g.safeSequence ++ [procName s.p] }
            done := s.done.set s.p true
            doneCounter := s.doneCounter + 1 }) ∨
    (s' = advance { s with failCounter := s.failCounter + 1 } ∧
        s.doneCounter < P ∧ s.failCounter + 1 < P) := by
  unfold visit at h
  split at h
  · exact absurd h (by simp)
  · rename_i need hneed
    split at h
    · exact absurd h (by simp)
    · rename_i suff hsuff
      split at h
      · exact absurd h (by simp)
      · rename_i d hd
        split at h
        · rename_i hcond
          split at h
          · exact absurd h (by simp)
          · rename_i held hheld
            split at h
            · exact absurd h (by simp)
            · rename_i avail havail
              simp only [Step.next.injEq] at h
              have hdf : d = false ∧ suff = true := by
                cases d <;> cases suff <;> simp at hcond ⊢
              left
              refine ⟨need, held, avail, hneed, ?_, ?_, hheld, havail, h.symm⟩
              · rw [hsuff, hdf.2]
              · rw [hd, hdf.1]
        · split at h
          · exact absurd h (by simp)
          · split at h
            · exact absurd h (by simp)
            · simp only [Step.next.injEq] at h
              right
              exact ⟨h.symm, by omega, by omega⟩

theorem visit_ret_inv {P : Nat} {s : Frame} {b : Bool} {g : Globals}
    (h : visit P s = .ret b g) :
    g = s.g ∧ ((b = true ∧ P ≤ s.doneCounter) ∨
      (b = false ∧ s.doneCounter < P ∧ P ≤ s.failCounter + 1)) := by
  unfold visit at h
  split at h
  · exact absurd h (by simp)
  · split at h
    · exact absurd h (by simp)
    · split at h
      · exact absurd h (by simp)
      · split at h
        · split at h
          · exact absurd h (by simp)
          · split at h
            · exact absurd h (by simp)
            · exact absurd h (by simp)
        · split at h
          · rename_i hdc
            simp only [Step.ret.injEq] at h
            exact ⟨h.2.symm, Or.inl ⟨h.1.symm, hdc⟩⟩
          · rename_i hdc
            split at h
            · rename_i hfc
              simp only [Step.ret.injEq] at h
              exact ⟨h.2.symm, Or.inr ⟨h.1.symm, by omega, hfc⟩⟩
            · exact absurd h (by simp)

/-- A visit leaves `assigned`, `necessary` and `total` as they are. -/
theorem visit_next_frame {P : Nat} {s s' : Frame} (h : visit P s = .next s') :
    s'.g.assigned = s.g.assigned ∧ s'.g.necessary = s.g.necessary ∧
      s'.g.total = s.g.total := by
  rcases visit_next_inv h with ⟨_, _, _, _, _, _, _, _, rfl⟩ | ⟨rfl, _, _⟩
  · rw [advance_g]; exact ⟨rfl, rfl, rfl⟩
  · rw [advance_g]; exact ⟨rfl, rfl, rfl⟩

theorem run_frame (P : Nat) :
    ∀ (fuel : Nat) (s : Frame) (b : Bool) (e : Option String) (g : Globals),
      run P fuel s = .returned b e g →
      g.assigned = s.g.assigned ∧ g.necessary = s.g.necessary ∧ g.total = s.g.total := by
  intro fuel
  induction fuel with
  | zero => intro s b e g h; simp [run] at h
  | succ n ih =>
    intro s b e g h
    rw [run] at h
    cases hv : visit P s with
    | next s' =>
      rw [hv] at h
      obtain ⟨h1, h2, h3⟩ := ih s' b e g h
      obtain ⟨k1, k2, k3⟩ := visit_next_frame hv
      exact ⟨h1.trans k1, h2.trans k2, h3.trans k3⟩
    | ret b1 g1 =>
      rw [hv] at h
      simp only [Res.returned.injEq] at h
      obtain ⟨_, _, rfl⟩ := h
      rw [(visit_ret_inv hv).1]
      exact ⟨rfl, rfl, rfl⟩
    | panic => rw [hv] at h; exact absurd h (by simp)

/-! ## Visits and fuel -/

theorem frameAt_succ_of_next {P : Nat} {s0 s1 : Frame} (h : visit P s0 = .next s1) :
    ∀ k, frameAt P s0 (k + 1) = frameAt P s1 k := by
  intro k
  induction k with
  | zero => simp [frameAt, h]
  | succ k ih =>
    rw [frameAt, ih]
    conv_rhs => rw [frameAt]

theorem run_of_frameAt (P : Nat) (s0 : Frame) :
    ∀ (k : Nat) (s : Frame), frameAt P s0 k = some s →
      ∀ n, run P (k + n) s0 = run P n s := by
  intro k
  induction k with
  | zero =>
    intro s h n
    simp only [frameAt, Option.some.injEq] at h
    subst h
    simp
  | succ k ih =>
    intro s' h n
    rw [frameAt] at h
    cases hk : frameAt P s0 k with
    | none => rw [hk] at h; exact absurd h (by simp)
    | some s =>
      rw [hk] at h
      dsimp only at h
      cases hv : visit P s with
      | next s1 =>
        rw [hv] at h
        simp only [Option.some.injEq] at h
        subst h
        have := ih s hk (n + 1)
        rw [show k + 1 + n = k + (n + 1) by omega, this, run, hv]
      | ret b g => rw [hv] at h; exact absurd h (by simp)
      | panic => rw [hv] at h; exact absurd h (by simp)

/-- When the run returns, some visit executed the `return`. -/
theorem frameAt_of_run (P : Nat) :
    ∀ (fuel : Nat) (s0 : Frame) (b : Bool) (e : Option String) (g : Globals),
      run P fuel s0 = .returned b e g →
      ∃ k s, k < fuel ∧ frameAt P s0 k = some s ∧ visit P s = .ret b g ∧ e = none := by
  intro fuel
  induction fuel with
  | zero => intro s0 b e g h; simp [run] at h
  | succ n ih =>
    intro s0 b e g h
    rw [run] at h
    cases hv : visit P s0 with
    | next s1 =>
      rw [hv] at h
      obtain ⟨k, s, hk, hf, hr, he⟩ := ih s1 b e g h
      exact ⟨k + 1, s, by omega, by rw [frameAt_succ_of_next hv]; exact hf, hr, he⟩
    | ret b1 g1 =>
      rw [hv] at h
      simp only [Res.returned.injEq] at h
      obtain ⟨rfl, rfl, rfl⟩ := h
      exact ⟨0, s0, by omega, rfl, hv, rfl⟩
    | panic => rw [hv] at h; exact absurd h (by simp)

theorem run_of_ret {P : Nat} {s0 s : Frame} {k : Nat} {b : Bool} {g : Globals}
    (hf : frameAt P s0 k = some s) (hv : visit P s = .ret b g) :
    run P (k + 1) s0 = .returned b none g ∧ run P k s0 = .running := by
  constructor
  · rw [run_of_frameAt P s0 k s hf 1, run, hv]
  · have := run_of_frameAt P s0 k s hf 0
    simpa [run] using this

theorem frameAt_none_later {P : Nat} {s0 : Frame} :
    ∀ (i k : Nat), frameAt P s0 k = none → frameAt P s0 (k + i) = none := by
  intro i
  induction i with
  | zero => intro k h; exact h
  | succ i ih =>
    intro k h
    rw [show k + (i + 1) = (k + i) + 1 by omega, frameAt, ih k h]

theorem frameAt_isSome_of_le {P : Nat} {s0 s : Frame} {k j : Nat}
    (h : frameAt P s0 k = some s) (hj : j ≤ k) : ∃ sj, frameAt P s0 j = some sj := by
  cases hj' : frameAt P s0 j with
  | some sj => exact ⟨sj, rfl⟩
  | none =>
    have := frameAt_none_later (k - j) j hj'
    rw [show j + (k - j) = k by omega, h] at this
    exact absurd this (by simp)

theorem frameAt_succ {P : Nat} {s0 s s' : Frame} {k : Nat}
    (h : frameAt P s0 k = some s) (hv : visit P s = .next s') :
    frameAt P s0 (k + 1) = some s' := by
  rw [frameAt, h]
  simp [hv]

theorem frameAt_succ_inv {P : Nat} {s0 s' : Frame} {k : Nat}
    (h : frameAt P s0 (k + 1) = some s') :
    ∃ s, frameAt P s0 k = some s ∧ visit P s = .next s' := by
  rw [frameAt] at h
  cases hk : frameAt P s0 k with
  | none => rw [hk] at h; exact absurd h (by simp)
  | some s =>
    rw [hk] at h
    dsimp only at h
    cases hv : visit P s with
    | next s1 =>
      rw [hv] at h
      simp only [Option.some.injEq] at h
      subst h
      exact ⟨s, rfl, hv⟩
    | ret b g => rw [hv] at h; exact absurd h (by simp)
    | panic => rw [hv] at h; exact absurd h (by simp)

/-! ## Flow of resources, whatever the dimensions -/

theorem freeResources_some (avail : List Int) :
    ∀ (qs out : List Int), freeResources avail qs = some out →
      out.length = avail.length ∧
        ∀ r, out.getD r 0 =
          if r < qs.length then wrap64 (avail.getD r 0 + qs.getD r 0) else avail.getD r 0 := by
  induction avail with
  | nil =>
    intro qs out h
    cases qs with
    | nil =>
      simp only [freeResources, Option.some.injEq] at h
      subst h
      simp
    | cons q qs => simp [freeResources] at h
  | cons a as ih =>
    intro qs out h
    cases qs with
    | nil =>
      simp only [freeResources, Option.some.injEq] at h
      subst h
      simp
    | cons q qs =>
      simp only [freeResources, Option.map_eq_some'] at h
      obtain ⟨t, ht, rfl⟩ := h
      obtain ⟨hl, hg⟩ := ih qs t ht
      refine ⟨by simp [hl], ?_⟩
      intro r
      cases r with
      | zero => simp
      | succ k => simpa using hg k

theorem entry_lite (P : Nat) (g : Globals) : Lite P g [] (entry P g) :=
  { asg := rfl
    nec := rfl
    tot := rfl
    recd := by simp [entry]
    availLen := rfl
    avail := by intro r; simp [entry, poolAfter, pool0]
    doneLen := by simp [entry]
    doneIff := by
      intro i
      simp only [entry, List.getElem?_replicate]
      split <;> simp
    nodup := List.nodup_nil
    cnt := rfl }

theorem Lite.after_step {P : Nat} {g0 : Globals} {seq : List Nat} {s : Frame}
    (h : Lite P g0 seq s) : Lite P g0 seq (advance s) :=
  { asg := by rw [advance_g]; exact h.asg
    nec := by rw [advance_g]; exact h.nec
    tot := by rw [advance_g]; exact h.tot
    recd := by rw [advance_g]; exact h.recd
    availLen := by rw [advance_g]; exact h.availLen
    avail := by rw [advance_g]; exact h.avail
    doneLen := by rw [advance_done]; exact h.doneLen
    doneIff := by rw [advance_done]; exact h.doneIff
    nodup := h.nodup
    cnt := by rw [advance_doneCounter]; exact h.cnt }

theorem Lite.lt_of_mem {P : Nat} {g0 : Globals} {seq : List Nat} {s : Frame}
    (hi : Lite P g0 seq s) {i : Nat} (h : i ∈ seq) : i < P := by
  have h1 := (hi.doneIff i).2 h
  have h2 : i < s.done.length := by
    by_contra hge
    rw [List.getElem?_eq_none (by omega)] at h1
    exact absurd h1 (by simp)
  rw [hi.doneLen] at h2
  exact h2

/-- A visit that goes on either completes process `s.p`, which was pending and
whose `assigned` row is added to `available`, or changes no global. -/
theorem Lite.visit_next {P : Nat} {g0 : Globals} {seq : List Nat} {s s' : Frame}
    (hi : Lite P g0 seq s) (hv : visit P s = .next s') :
    (s.p ∉ seq ∧ Lite P g0 (seq ++ [s.p]) s' ∧ s'.doneCounter = s.doneCounter + 1 ∧
      ∀ r, s'.g.available.getD r 0 = release g0 s.p (pool0 s.g) r) ∨
    (s'.g = s.g ∧ Lite P g0 seq s' ∧ s'.doneCounter = s.doneCounter) := by
  rcases visit_next_inv hv with ⟨need, row, avail, _, _, hd, hrow, hfree, rfl⟩ | ⟨rfl, _, _⟩
  · left
    obtain ⟨hlen, hget⟩ := freeResources_some _ _ _ hfree
    have hpd : s.p < s.done.length := by
      by_contra hge
      rw [List.getElem?_eq_none (by omega)] at hd
      exact absurd hd (by simp)
    have hnot : s.p ∉ seq := by
      intro hm
      have := (hi.doneIff s.p).2 hm
      rw [hd] at this
      exact absurd this (by simp)
    rw [hi.asg] at hrow
    refine ⟨hnot, Lite.after_step ?_, by rw [advance_doneCounter], ?_⟩
    · exact
        { asg := hi.asg
          nec := hi.nec
          tot := hi.tot
          recd := by simp [hi.recd]
          availLen := by simp [hlen, hi.availLen]
          avail := by
            intro r
            show avail.getD r 0 = _
            rw [hget, hi.avail, poolAfter_concat, release_of_row hrow]
          doneLen := by simp [hi.doneLen]
          doneIff := by
            intro i
            show (s.done.set s.p true)[i]? = some true ↔ _
            by_cases hip : s.p = i
            · subst hip
              simp [List.getElem?_set_self hpd]
            · rw [List.getElem?_set_ne hip, hi.doneIff]
              simp [Ne.symm hip]
          nodup := by
            rw [List.nodup_append]
            refine ⟨hi.nodup, List.nodup_singleton _, ?_⟩
            intro a ha hb
            rw [List.mem_singleton] at hb
            subst hb
            exact hnot ha
          cnt := by simp [hi.cnt] }
    · intro r
      rw [advance_g]
      show avail.getD r 0 = _
      rw [hget, release_of_row hrow]
      rfl
  · right
    refine ⟨by rw [advance_g], Lite.after_step ?_, by rw [advance_doneCounter]⟩
    exact
      { asg := hi.asg, nec := hi.nec, tot := hi.tot, recd := hi.recd
        availLen := hi.availLen, avail := hi.avail, doneLen := hi.doneLen
        doneIff := hi.doneIff, nodup := hi.nodup, cnt := hi.cnt }

theorem frameAt_lite (P : Nat) (g : Globals) :
    ∀ (k : Nat) (s : Frame), frameAt P (entry P g) k = some s → ∃ seq, Lite P g seq s := by
  intro k
  induction k with
  | zero =>
    intro s h
    simp only [frameAt, Option.some.injEq] at h
    subst h
    exact ⟨[], entry_lite P g⟩
  | succ k ih =>
    intro s' h
    obtain ⟨s, hs, hv⟩ := frameAt_succ_inv h
    obtain ⟨seq, hi⟩ := ih s hs
    rcases hi.visit_next hv with ⟨_, hi', _, _⟩ | ⟨_, hi', _⟩
    · exact ⟨_, hi'⟩
    · exact ⟨_, hi'⟩

/-- The globals at a `return` of `safeState`, in terms of the list of the
processes completed. -/
theorem safeState_lite {P fuel : Nat} {g g' : Globals} {b : Bool} {e : Option String}
    (h : safeState P fuel g = .returned b e g') :
    ∃ s seq, g' = s.g ∧ Lite P g seq s ∧ (b = true → P ≤ seq.length) := by
  obtain ⟨k, s, _, hf, hv, _⟩ := frameAt_of_run P fuel _ b e g' h
  obtain ⟨seq, hi⟩ := frameAt_lite P g k s hf
  obtain ⟨hg, hb⟩ := visit_ret_inv hv
  refine ⟨s, seq, hg, hi, ?_⟩
  intro hb'
  rcases hb with ⟨_, hdc⟩ | ⟨hf', _, _⟩
  · rw [← hi.cnt]; exact hdc
  · rw [hb'] at hf'; exact absurd hf' (by simp)

/-! ## The properties, continued -/

/-- C11, frame: whenever `safeState` returns, `assigned` and `necessary` (and
`total`) are what they were at entry, and so they are at every visit of the
evaluation; only `available`, `safeSequence` and the locals change. -/
theorem safeState_frame (P fuel : Nat) (g g' : Globals) (b : Bool) (e : Option String)
    (h : safeState P fuel g = .returned b e g') :
    g'.assigned = g.assigned ∧ g'.necessary = g.necessary ∧ g'.total = g.total ∧
    ∀ (k : Nat) (s : Frame), frameAt P (entry P g) k = some s →
      s.g.assigned = g.assigned ∧ s.g.necessary = g.necessary ∧ s.g.total = g.total := by
  obtain ⟨h1, h2, h3⟩ := run_frame P fuel _ b e g' h
  refine ⟨h1, h2, h3, ?_⟩
  intro k s hs
  obtain ⟨seq, hi⟩ := frameAt_lite P g k s hs
  exact ⟨hi.asg, hi.nec, hi.tot⟩

/-- Instance of `safeState_frame` on `relay`. -/
theorem safeState_frame_witness :
    [[0], [1]] = relay.assigned ∧ [[2], [1]] = relay.necessary ∧ [[2], [2]] = relay.total ∧
    ∀ (k : Nat) (s : Frame), frameAt 2 (entry 2 relay) k = some s →
      s.g.assigned = relay.assigned ∧ s.g.necessary = relay.necessary ∧
        s.g.total = relay.total :=
  safeState_frame 2 4 relay { relay with available := [2], safeSequence := ["P1", "P0"] }
    true none (by decide)

/-! ## The state built by `initRun` -/

theorem drawIn_mem (lo hi : Int) (hK : hi - lo + 1 ≠ 0) (h0 : 0 ≤ lo)
    (hfit : drawTop lo hi ≤ intMax) (x : Nat) :
    lo ≤ drawIn lo hi x ∧ drawIn lo hi x ≤ drawTop lo hi := by
  unfold drawIn
  unfold drawTop at hfit ⊢
  unfold intMax at hfit
  have h1 : 0 ≤ Int.tmod (x : Int) (hi - lo + 1) := Int.tmod_nonneg _ (Int.ofNat_nonneg x)
  by_cases hpos : 0 ≤ hi - lo + 1
  · rw [if_pos hpos] at hfit ⊢
    have h2 : Int.tmod (x : Int) (hi - lo + 1) < hi - lo + 1 :=
      Int.tmod_lt_of_pos _ (by omega)
    rw [wrap64_of_mem _ (by unfold intMin; omega) (by unfold intMax; omega)]
    omega
  · rw [if_neg hpos] at hfit ⊢
    have h2 : Int.tmod (x : Int) (-(hi - lo + 1)) < -(hi - lo + 1) :=
      Int.tmod_lt_of_pos _ (by omega)
    rw [Int.tmod_neg] at h2
    rw [wrap64_of_mem _ (by unfold intMin; omega) (by unfold intMax; omega)]
    omega

theorem le_drawTop (lo hi : Int) (hK : hi - lo + 1 ≠ 0) : lo ≤ drawTop lo hi := by
  unfold drawTop
  split <;> omega

theorem fill_some (rnd : Nat → Nat) (lo hi : Int) :
    ∀ (n k : Nat) (row : List Int), fill rnd lo hi n k = some row →
      row.length = n ∧ ∀ x ∈ row, hi - lo + 1 ≠ 0 ∧ ∃ y, x = drawIn lo hi y := by
  intro n
  induction n with
  | zero =>
    intro k row h
    simp only [fill, Option.some.injEq] at h
    subst h
    exact ⟨rfl, by simp⟩
  | succ n ih =>
    intro k row h
    rw [fill] at h
    by_cases hK : hi - lo + 1 = 0
    · rw [if_pos hK] at h
      exact absurd h (by simp)
    · rw [if_neg hK] at h
      cases ht : fill rnd lo hi n (k + 1) with
      | none => rw [ht] at h; exact absurd h (by simp)
      | some t =>
        rw [ht] at h
        simp only [Option.map_some', Option.some.injEq] at h
        subst h
        obtain ⟨hl, hb⟩ := ih (k + 1) t ht
        refine ⟨by simp [hl], ?_⟩
        intro x hx
        rcases List.mem_cons.1 hx with rfl | hx
        · exact ⟨hK, _, rfl⟩
        · exact hb x hx

theorem fillRows_some (rnd : Nat → Nat) (lo hi : Int) (R : Nat) :
    ∀ (m k : Nat) (rows : List (List Int)), fillRows rnd lo hi R m k = some rows →
      rows.length = m ∧
      ∀ row ∈ rows, row.length = R ∧ ∀ x ∈ row, hi - lo + 1 ≠ 0 ∧ ∃ y, x = drawIn lo hi y := by
  intro m
  induction m with
  | zero =>
    intro k rows h
    simp only [fillRows, Option.some.injEq] at h
    subst h
    exact ⟨rfl, by simp⟩
  | succ m ih =>
    intro k rows h
    rw [fillRows] at h
    cases hr : fill rnd lo hi R k with
    | none => rw [hr] at h; exact absurd h (by simp)
    | some row =>
      rw [hr] at h
      dsimp only at h
      cases ht : fillRows rnd lo hi R m (k + R) with
      | none => rw [ht] at h; exact absurd h (by simp)
      | some t =>
        rw [ht] at h
        simp only [Option.map_some', Option.some.injEq] at h
        subst h
        obtain ⟨hl, hb⟩ := ih (k + R) t ht
        refine ⟨by simp [hl], ?_⟩
        intro r hr'
        rcases List.mem_cons.1 hr' with rfl | hr'
        · exact fill_some rnd lo hi R k _ hr
        · exact hb r hr'

theorem fill_total (rnd : Nat → Nat) (lo hi : Int) (hK : hi - lo + 1 ≠ 0) :
    ∀ (n k : Nat), ∃ row, fill rnd lo hi n k = some row := by
  intro n
  induction n with
  | zero => intro k; exact ⟨[], rfl⟩
  | succ n ih =>
    intro k
    obtain ⟨row, hr⟩ := ih (k + 1)
    exact ⟨drawIn lo hi (rnd k) :: row, by rw [fill, if_neg hK, hr]; rfl⟩

theorem fillRows_total (rnd : Nat → Nat) (lo hi : Int) (hK : hi - lo + 1 ≠ 0) (R : Nat) :
    ∀ (m k : Nat), ∃ rows, fillRows rnd lo hi R m k = some rows := by
  intro m
  induction m with
  | zero => intro k; exact ⟨[], rfl⟩
  | succ m ih =>
    intro k
    obtain ⟨row, hr⟩ := fill_total rnd lo hi hK R k
    obtain ⟨rows, hrs⟩ := ih (k + R)
    refine ⟨row :: rows, ?_⟩
    rw [fillRows, hr]
    simp only [hrs]
    rfl

theorem entryAt_mem {rows : List (List Int)} {R : Nat} {Q : Int → Prop}
    (h : ∀ row ∈ rows, row.length = R ∧ ∀ x ∈ row, Q x)
    {i j : Nat} (hi' : i < rows.length) (hj : j < R) : Q (entryAt rows i j) := by
  obtain ⟨hlen, hb⟩ := h rows[i] (List.getElem_mem _)
  have hj' : j < rows[i].length := by rw [hlen]; exact hj
  have he : entryAt rows i j = rows[i][j] := by
    simp [entryAt, hi', hj']
  rw [he]
  exact hb _ (List.getElem_mem _)

theorem index_of_mem {rows : List (List Int)} {R : Nat}
    (h : ∀ row ∈ rows, row.length = R) {row : List Int} {x : Int} (hr : row ∈ rows)
    (hx : x ∈ row) : ∃ i j, i < rows.length ∧ j < R ∧ x = entryAt rows i j := by
  obtain ⟨i, hi, rfl⟩ := List.getElem_of_mem hr
  obtain ⟨j, hj, rfl⟩ := List.getElem_of_mem hx
  refine ⟨i, j, hi, by rw [← h _ hr]; exact hj, ?_⟩
  simp [entryAt, hi, hj]

/-- C12, counterexample: with non-negative minima and
`minTotalRes ≥ maxAssignedRes`, (1) when the range of `assigned` is inverted
(`minAssignedRes = 10`, `maxAssignedRes = 0`) `initRun` builds a state whose
`necessary` entries are negative; (2) when the range of `available` is
inverted and wide the sum of a draw overflows and `initRun` builds a state
whose `available` entries are negative; (3) when a range is empty
(`maxResQty = minResQty - 1`) the remainder is taken by zero and no state is
built. -/
theorem inverted_range_cex :
    (0 ≤ invertedConfig.minResQty ∧ 0 ≤ invertedConfig.minAssignedRes ∧
      0 ≤ invertedConfig.minTotalRes ∧
      invertedConfig.maxAssignedRes ≤ invertedConfig.minTotalRes ∧
      initRun invertedConfig (fun k => 7 * k + 3) =
        .built { available := [1, 2], assigned := [[18, 16], [14, 12]],
                 total := [[3, 2], [5, 4]], necessary := [[-15, -14], [-9, -8]],
                 safeSequence := [] }) ∧
    (0 ≤ wideConfig.minResQty ∧ 0 ≤ wideConfig.minAssignedRes ∧
      0 ≤ wideConfig.minTotalRes ∧ wideConfig.maxAssignedRes ≤ wideConfig.minTotalRes ∧
      wideConfig.minAssignedRes ≤ wideConfig.maxAssignedRes ∧
      initRun wideConfig (fun _ => 9223372036854775806) =
        .built { available := [-4611686018427387906, -4611686018427387906],
                 assigned := [[0, 0], [0, 0]], total := [[4, 4], [4, 4]],
                 necessary := [[4, 4], [4, 4]], safeSequence := [] }) ∧
    (0 ≤ emptyConfig.minResQty ∧ 0 ≤ emptyConfig.minAssignedRes ∧
      0 ≤ emptyConfig.minTotalRes ∧ emptyConfig.maxAssignedRes ≤ emptyConfig.minTotalRes ∧
      initRun emptyConfig (fun k => 7 * k + 3) = .panicked) := by
  decide

/-- C12, amended: whatever the random source returns, for ranges with
non-negative minima, `minTotalRes ≥ maxAssignedRes`,
`minAssignedRes ≤ maxAssignedRes` and no draw of `available` or `total`
overflowing (the largest sum a draw can form is at most `2^63 - 1`), every
state `initRun` builds has consistent dimensions,
`necessary[p][r] = total[p][r] - assigned[p][r]` and every entry of
`necessary`, `available` and `assigned` non-negative; `initRun` does build a
state when `minTotalRes ≥ maxAssignedRes` and no range has
`max - min + 1 = 0`; and when `minTotalRes < maxAssignedRes` it builds no
state. -/
theorem initRun_invariant (c : Config) (rnd : Nat → Nat) :
    (0 ≤ c.minResQty → 0 ≤ c.minAssignedRes → 0 ≤ c.minTotalRes →
      c.maxAssignedRes ≤ c.minTotalRes → c.minAssignedRes ≤ c.maxAssignedRes →
      drawTop c.minResQty c.maxResQty ≤ intMax →
      drawTop c.minTotalRes c.maxTotalRes ≤ intMax →
      ∀ g, initRun c rnd = .built g →
        Consistent c.nOfProcesses c.nOfResources g ∧ NonNeg g ∧ g.safeSequence = [] ∧
        ∀ p r, p < c.nOfProcesses → r < c.nOfResources →
          need g p r = entryAt g.total p r - held g p r ∧ 0 ≤ need g p r ∧
          0 ≤ held g p r ∧ 0 ≤ pool0 g r) ∧
    (c.maxAssignedRes ≤ c.minTotalRes → c.maxResQty - c.minResQty + 1 ≠ 0 →
      c.maxAssignedRes - c.minAssignedRes + 1 ≠ 0 →
      c.maxTotalRes - c.minTotalRes + 1 ≠ 0 → ∃ g, initRun c rnd = .built g) ∧
    (c.minTotalRes < c.maxAssignedRes → ∀ g, initRun c rnd ≠ .built g) := by
  refine ⟨?_, ?_, ?_⟩
  · intro h4 h5 h6 h7 h2 hfR hfT g hg
    unfold initRun at hg
    cases hav : fill rnd c.minResQty c.maxResQty c.nOfResources 0 with
    | none => rw [hav] at hg; exact absurd hg (by simp)
    | some av =>
      rw [hav] at hg
      dsimp only at hg
      cases hasg : fillRows rnd c.minAssignedRes c.maxAssignedRes c.nOfResources
          c.nOfProcesses c.nOfResources with
      | none => rw [hasg] at hg; exact absurd hg (by simp)
      | some asg =>
        rw [hasg] at hg
        dsimp only at hg
        rw [if_neg (not_lt.2 h7)] at hg
        cases htot : fillRows rnd c.minTotalRes c.maxTotalRes c.nOfResources
            c.nOfProcesses (c.nOfResources + c.nOfProcesses * c.nOfResources) with
        | none => rw [htot] at hg; exact absurd hg (by simp)
        | some tot =>
          rw [htot] at hg
          simp only [InitRes.built.injEq] at hg
          subst hg
          obtain ⟨havl, havb⟩ := fill_some rnd _ _ _ _ _ hav
          obtain ⟨hasgl, hasgb⟩ := fillRows_some rnd _ _ _ _ _ _ hasg
          obtain ⟨htotl, htotb⟩ := fillRows_some rnd _ _ _ _ _ _ htot
          have hKA : c.maxAssignedRes - c.minAssignedRes + 1 ≠ 0 := by omega
          have htop : drawTop c.minAssignedRes c.maxAssignedRes = c.maxAssignedRes := by
            unfold drawTop
            rw [if_pos (by omega)]
          have hT : ∀ i j, i < c.nOfProcesses → j < c.nOfResources →
              c.minTotalRes ≤ entryAt tot i j ∧ entryAt tot i j ≤ intMax := by
            intro i j hi hj
            obtain ⟨hK, y, hy⟩ := entryAt_mem
              (Q := fun x => c.maxTotalRes - c.minTotalRes + 1 ≠ 0 ∧
                ∃ y, x = drawIn c.minTotalRes c.maxTotalRes y)
              htotb (by rw [htotl]; exact hi) hj
            have := drawIn_mem c.minTotalRes c.maxTotalRes hK h6 hfT y
            rw [hy]
            exact ⟨this.1, le_trans this.2 hfT⟩
          have hA : ∀ i j, i < c.nOfProcesses → j < c.nOfResources →
              c.minAssignedRes ≤ entryAt asg i j ∧ entryAt asg i j ≤ c.maxAssignedRes := by
            intro i j hi hj
            obtain ⟨_, y, hy⟩ := entryAt_mem
              (Q := fun x => c.maxAssignedRes - c.minAssignedRes + 1 ≠ 0 ∧
                ∃ y, x = drawIn c.minAssignedRes c.maxAssignedRes y)
              hasgb (by rw [hasgl]; exact hi) hj
            have hmax : c.maxAssignedRes ≤ intMax := by
              have := hT i j hi hj
              omega
            have := drawIn_mem c.minAssignedRes c.maxAssignedRes hKA h5
              (by rw [htop]; exact hmax) y
            rw [htop] at this
            rw [hy]
            exact this
          have hent : ∀ i j, i < c.nOfProcesses → j < c.nOfResources →
              wrap64 (entryAt tot i j - entryAt asg i j) = entryAt tot i j - entryAt asg i j ∧
              0 ≤ entryAt tot i j - entryAt asg i j := by
            intro i j hi hj
            have ht := hT i j hi hj
            have ha := hA i j hi hj
            have hmax : entryAt tot i j ≤ intMax := ht.2
            unfold intMax at hmax
            refine ⟨wrap64_of_mem _ (by unfold intMin; omega) (by unfold intMax; omega), ?_⟩
            omega
          refine ⟨?_, ?_, rfl, ?_⟩
          · refine ⟨havl, by simp, hasgl, ?_, fun row hr => (hasgb row hr).1⟩
            intro row hr
            obtain ⟨i, _, rfl⟩ := List.mem_map.1 hr
            simp
          · refine ⟨?_, ?_, ?_⟩
            · intro x hx
              obtain ⟨hK, y, rfl⟩ := havb x hx
              exact le_trans h4 (drawIn_mem _ _ hK h4 hfR y).1
            · intro row hr x hx
              obtain ⟨i, j, hi, hj, rfl⟩ :=
                index_of_mem (fun row hr => (hasgb row hr).1) hr hx
              exact le_trans h5 (hA i j (by rw [← hasgl]; exact hi) hj).1
            · intro row hr x hx
              obtain ⟨i, hi, rfl⟩ := List.mem_map.1 hr
              obtain ⟨j, hj, rfl⟩ := List.mem_map.1 hx
              have := hent i j (List.mem_range.1 hi) (List.mem_range.1 hj)
              rw [this.1]
              exact this.2
          · intro p r hp hr
            have hn : need
                { available := av, assigned := asg, total := tot
                  necessary := (List.range c.nOfProcesses).map fun i =>
                    (List.range c.nOfResources).map fun j =>
                      wrap64 (entryAt tot i j - entryAt asg i j)
                  safeSequence := [] } p r = entryAt tot p r - entryAt asg p r := by
              simp [need, hp, hr, (hent p r hp hr).1]
            have hh : ∀ g : Globals, held g p r = entryAt g.assigned p r := fun g => rfl
            refine ⟨by rw [hn, hh], by rw [hn]; exact (hent p r hp hr).2, ?_, ?_⟩
            · rw [hh]
              exact le_trans h5 (hA p r hp hr).1
            · have hr' : r < av.length := by rw [havl]; exact hr
              have : pool0
                  { available := av, assigned := asg, total := tot
                    necessary := (List.range c.nOfProcesses).map fun i =>
                      (List.range c.nOfResources).map fun j =>
                        wrap64 (entryAt tot i j - entryAt asg i j)
                    safeSequence := [] } r = av[r] := by
                simp [pool0, hr']
              rw [this]
              obtain ⟨hK, y, hy⟩ := havb _ (List.getElem_mem hr')
              rw [hy]
              exact le_trans h4 (drawIn_mem _ _ hK h4 hfR y).1
  · intro h7 hKR hKA hKT
    obtain ⟨av, hav⟩ := fill_total rnd c.minResQty c.maxResQty hKR c.nOfResources 0
    obtain ⟨asg, hasg⟩ := fillRows_total rnd c.minAssignedRes c.maxAssignedRes hKA
      c.nOfResources c.nOfProcesses c.nOfResources
    obtain ⟨tot, htot⟩ := fillRows_total rnd c.minTotalRes c.maxTotalRes hKT
      c.nOfResources c.nOfProcesses (c.nOfResources + c.nOfProcesses * c.nOfResources)
    refine ⟨{ available := av, assigned := asg, total := tot
              necessary := (List.range c.nOfProcesses).map fun i =>
                (List.range c.nOfResources).map fun j =>
                  wrap64 (entryAt tot i j - entryAt asg i j)
              safeSequence := [] }, ?_⟩
    rw [initRun, hav, hasg]
    simp only [if_neg (not_lt.2 h7), htot]
  · intro hlt g hg
    unfold initRun at hg
    split at hg
    · exact absurd hg (by simp)
    · split at hg
      · exact absurd hg (by simp)
      · rw [if_pos hlt] at hg
        exact absurd hg (by simp)

/-- Instance of `initRun_invariant` on `smallConfig` (the state it builds, and
that it builds one) and on `badConfig`. -/
theorem initRun_invariant_witness :
    (Consistent 2 2 smallBuilt ∧ NonNeg smallBuilt ∧ smallBuilt.safeSequence = [] ∧
      ∀ p r, p < 2 → r < 2 →
        need smallBuilt p r = entryAt smallBuilt.total p r - held smallBuilt p r ∧
        0 ≤ need smallBuilt p r ∧ 0 ≤ held smallBuilt p r ∧ 0 ≤ pool0 smallBuilt r) ∧
    (∃ g, initRun smallConfig (fun k => 7 * k + 3) = .built g) ∧
    initRun badConfig (fun k => 7 * k + 3) ≠
      .built { available := [], assigned := [], total := [], necessary := [],
               safeSequence := [] } :=
  ⟨(initRun_invariant smallConfig (fun k => 7 * k + 3)).1 (by decide) (by decide)
      (by decide) (by decide) (by decide) (by decide) (by decide) smallBuilt (by decide),
   (initRun_invariant smallConfig (fun k => 7 * k + 3)).2.1 (by decide) (by decide)
      (by decide) (by decide),
   (initRun_invariant badConfig (fun k => 7 * k + 3)).2.2 (by decide) _⟩

/-! ## A sharper bound on the number of visits -/

theorem phiN_done (P p dc fc : Nat) (hp : p < P) (hfc : fc ≤ p) (hdc : dc + 1 ≤ P)
    (hside : fc = p → p + 1 = P → dc + 1 < P) :
    phiN P (if p + 1 = P then 0 else p + 1) (dc + 1) (if p + 1 = P then 0 else fc) <
      phiN P p dc fc := by
  unfold phiN
  by_cases h1 : P ≤ dc + 1
  · rw [if_pos h1, if_neg (show ¬ P ≤ dc by omega)]
    by_cases hfp : fc = p
    · have := hside hfp
      rw [if_pos hfp]
      omega
    · rw [if_neg hfp]
      omega
  · have hs := mu_step P dc (by omega)
    rw [if_neg h1, if_neg (show ¬ P ≤ dc by omega)]
    by_cases hw : p + 1 = P
    · simp only [if_pos hw]
      split_ifs <;> omega
    · simp only [if_neg hw]
      split_ifs <;> omega

theorem phiN_fail (P p dc fc : Nat) (hp : p < P) (hdc : dc < P) (hf : fc + 1 < P) :
    phiN P (if p + 1 = P then 0 else p + 1) dc (if p + 1 = P then 0 else fc + 1) <
      phiN P p dc fc := by
  unfold phiN
  rw [if_neg (show ¬ P ≤ dc by omega)]
  by_cases hw : p + 1 = P
  · simp only [if_pos hw]
    split_ifs <;> omega
  · simp only [if_neg hw]
    split_ifs <;> omega

theorem phi_entry (P : Nat) (g : Globals) (hP : 1 ≤ P) : phi P (entry P g) = P * P := by
  obtain ⟨k, rfl⟩ : ∃ k, P = k + 1 := ⟨P - 1, by omega⟩
  simp only [phi, phiN, entry]
  rw [if_neg (by omega)]
  simp only [Nat.sub_zero, Nat.add_sub_cancel, if_true]
  rw [Nat.mul_succ]
  omega

theorem advance_fields {P : Nat} {s t : Frame} (hnl : s.g.necessary.length = P)
    (h1 : t.p = s.p) (h2 : t.g.necessary = s.g.necessary) :
    (advance t).p = (if s.p + 1 = P then 0 else s.p + 1) ∧
    (advance t).failCounter = (if s.p + 1 = P then 0 else t.failCounter) ∧
    (advance t).doneCounter = t.doneCounter := by
  rw [advance_p, advance_failCounter, advance_doneCounter, h1, h2, hnl]
  exact ⟨rfl, rfl, rfl⟩

theorem LastBlocked.after_done {P R : Nat} {g0 : Globals} {seq : List Nat} {s t : Frame}
    (hi : Inv P R g0 seq s) (hnl : s.g.necessary.length = P)
    (h1 : t.p = s.p) (h2 : t.g.necessary = s.g.necessary)
    (h3 : t.failCounter = s.failCounter) :
    LastBlocked P R g0 (seq ++ [s.p]) (advance t) := by
  obtain ⟨hp, hf, _⟩ := advance_fields hnl h1 h2
  intro hfc _
  rw [hp, hf, h3] at hfc
  by_cases hw : s.p + 1 = P
  · left
    rw [show P - 1 = s.p by omega]
    simp
  · simp only [if_neg hw] at hfc
    have := hi.fcLe
    omega

theorem LastBlocked.after_fail {P R : Nat} {g0 : Globals} {seq : List Nat} {s t : Frame}
    (hlb : LastBlocked P R g0 seq s) (hnl : s.g.necessary.length = P)
    (hgo : ¬ (s.p ∉ seq ∧ Fits g0 R (poolAfter g0 (pool0 g0) seq) s.p))
    (h1 : t.p = s.p) (h2 : t.g.necessary = s.g.necessary)
    (h3 : t.failCounter = s.failCounter + 1) (h4 : t.doneCounter = s.doneCounter) :
    LastBlocked P R g0 seq (advance t) := by
  obtain ⟨hp, hf, hd⟩ := advance_fields hnl h1 h2
  intro hfc hdc
  rw [hp, hf, h3] at hfc
  rw [hd, h4] at hdc
  by_cases hw : s.p + 1 = P
  · by_cases hm : P - 1 ∈ seq
    · exact Or.inl hm
    · right
      intro hfit
      rw [show P - 1 = s.p by omega] at hm hfit
      exact hgo ⟨hm, hfit⟩
  · simp only [if_neg hw] at hfc
    exact hlb (by omega) hdc

theorem run_returns_sharp {P R : Nat} {g0 : Globals} (hc : Consistent P R g0) (hP : 2 ≤ P) :
    ∀ (fuel : Nat) (seq : List Nat) (s : Frame), Inv P R g0 seq s →
      LastBlocked P R g0 seq s → phi P s ≤ fuel → ∃ b g, run P fuel s = .returned b none g := by
  intro fuel
  induction fuel with
  | zero =>
    intro seq s hi _ h
    have : 0 < phi P s := by
      have := hi.pLt
      unfold phi phiN; split <;> omega
    omega
  | succ n ih =>
    intro seq s hi hlb h
    have hnl : s.g.necessary.length = P := by rw [hi.nec]; exact hc.2.1
    rw [run]
    rcases visit_cases hc hi with ⟨hnot, hfit, avail, hv, hi'⟩ | ⟨hgo, hrest⟩
    · rw [hv]
      have hlen := hi'.length_le
      refine ih _ _ hi' (LastBlocked.after_done hi hnl rfl rfl rfl) ?_
      have hside : s.failCounter = s.p → s.p + 1 = P → s.doneCounter + 1 < P := by
        intro hfp hw
        by_cases hd : 0 < s.doneCounter
        · rcases hlb hfp hd with hm | hnf
          · rw [show P - 1 = s.p by omega] at hm
            exact absurd hm hnot
          · rw [show P - 1 = s.p by omega] at hnf
            exact absurd hfit hnf
        · omega
      have hd := phiN_done P s.p s.doneCounter s.failCounter hi.pLt hi.fcLe
        (by rw [hi.cnt]; simpa using hlen) hside
      obtain ⟨e1, e2, e3⟩ := advance_fields (s := s) (t :=
        { s with
          g := { s.g with
                 available := avail
                 safeSequence := s.g.safeSequence ++ [procName s.p] }
          done := s.done.set s.p true
          doneCounter := s.doneCounter + 1 }) hnl rfl rfl
      unfold phi at h ⊢
      rw [e1, e2, e3]
      dsimp only
      omega
    · rcases hrest with ⟨_, hv⟩ | ⟨_, _, hv⟩ | ⟨hdc, hfc, hv, hi'⟩
      · exact ⟨true, s.g, by rw [hv]⟩
      · exact ⟨false, s.g, by rw [hv]⟩
      · rw [hv]
        refine ih _ _ hi' (LastBlocked.after_fail hlb hnl hgo rfl rfl rfl rfl) ?_
        have hd := phiN_fail P s.p s.doneCounter s.failCounter hi.pLt hdc hfc
        obtain ⟨e1, e2, e3⟩ := advance_fields (s := s)
          (t := { s with failCounter := s.failCounter + 1 }) hnl rfl rfl
        unfold phi at h ⊢
        rw [e1, e2, e3]
        dsimp only
        omega

/-- C13, counterexample: on the valid one-process state `lone`, `P * P = 1`
visit is not enough for `safeState` to return. -/
theorem one_pass_not_enough :
    Consistent 1 2 lone ∧ NonNeg lone ∧ safeState 1 (1 * 1) lone = .running ∧
    safeState 1 (1 * 1 + 1) lone =
      .returned true none { lone with available := [1, 4], safeSequence := ["P0"] } := by
  decide

/-- C13, amended: on a state with `P ≥ 1` and consistent dimensions
`safeState` returns its verdict within `P * P + 1` visits, and within `P * P`
visits when `P ≥ 2`. -/
theorem visit_bound (P R : Nat) (g : Globals) (hP : 1 ≤ P) (hc : Consistent P R g) :
    (∃ (b : Bool) (g' : Globals), safeState P (P * P + 1) g = .returned b none g') ∧
    (2 ≤ P → ∃ (b : Bool) (g' : Globals), safeState P (P * P) g = .returned b none g') := by
  refine ⟨safeState_returns hP hc (Nat.le_refl _), fun h2 => ?_⟩
  refine run_returns_sharp hc h2 (P * P) [] _ (entry_inv hP hc) ?_ ?_
  · intro _ hd
    simp [entry] at hd
  · rw [phi_entry P g hP]

/-- Instance of `visit_bound` on `relay`. -/
theorem visit_bound_witness :
    (∃ (b : Bool) (g' : Globals), safeState 2 (2 * 2 + 1) relay = .returned b none g') ∧
    (2 ≤ 2 → ∃ (b : Bool) (g' : Globals), safeState 2 (2 * 2) relay = .returned b none g') :=
  visit_bound 2 1 relay (by decide) (by decide)

/-! ## The circular scan and the conventional passes -/

theorem completesAt_next {P : Nat} {s0 s s' : Frame} {k : Nat}
    (hf : frameAt P s0 k = some s) (hv : visit P s = .next s') :
    completesAt P s0 k = decide (s'.doneCounter = s.doneCounter + 1) := by
  simp [completesAt, hf, hv]

theorem completesAt_ret {P : Nat} {s0 s : Frame} {k : Nat} {b : Bool} {g : Globals}
    (hf : frameAt P s0 k = some s) (hv : visit P s = .ret b g) :
    completesAt P s0 k = false := by
  simp [completesAt, hf, hv]

theorem frameAt_none_after_ret {P : Nat} {s0 s : Frame} {k : Nat} {b : Bool} {g : Globals}
    (hf : frameAt P s0 k = some s) (hv : visit P s = .ret b g) (j : Nat) (hj : k < j) :
    frameAt P s0 j = none := by
  have h1 : frameAt P s0 (k + 1) = none := by
    rw [frameAt, hf]
    simp [hv]
  have := @frameAt_none_later P s0 (j - (k + 1)) (k + 1) h1
  rwa [show k + 1 + (j - (k + 1)) = j by omega] at this

theorem pass_index_unique {P n n' i i' : Nat} (h : n * P + i = n' * P + i') (hi : i < P)
    (hi' : i' < P) : n = n' ∧ i = i' := by
  have hP : 0 < P := by omega
  have h1 : (n * P + i) / P = n := by
    rw [Nat.add_comm, Nat.add_mul_div_right _ _ hP, Nat.div_eq_of_lt hi, Nat.zero_add]
  have h2 : (n' * P + i') / P = n' := by
    rw [Nat.add_comm, Nat.add_mul_div_right _ _ hP, Nat.div_eq_of_lt hi', Nat.zero_add]
  have hn : n = n' := by rw [← h1, ← h2, h]
  subst hn
  exact ⟨rfl, by omega⟩

/-- Along the run from the entry frame: visit number `k` is the visit of
index `s.p` in pass number `n`, and `failCounter` still equals the index
exactly when no earlier visit of the pass completed a process. -/
theorem trace_inv {P R : Nat} {g : Globals} (hP : 1 ≤ P) (hc : Consistent P R g) :
    ∀ (k : Nat) (s : Frame), frameAt P (entry P g) k = some s →
      ∃ seq n, Inv P R g seq s ∧ k = n * P + s.p ∧
        (s.failCounter = s.p ↔
          ∀ j, n * P ≤ j → j < k → completesAt P (entry P g) j = false) := by
  intro k
  induction k with
  | zero =>
    intro s h
    simp only [frameAt, Option.some.injEq] at h
    subst h
    refine ⟨[], 0, entry_inv hP hc, by simp [entry], ?_⟩
    constructor
    · intro _ j _ hj; omega
    · intro _; rfl
  | succ k ih =>
    intro s' h
    obtain ⟨s, hs, hv⟩ := frameAt_succ_inv h
    obtain ⟨seq, n, hi, hk, hiff⟩ := ih s hs
    have hnl : s.g.necessary.length = P := by rw [hi.nec]; exact hc.2.1
    have hcomp := completesAt_next hs hv
    have hmul : (n + 1) * P = n * P + P := Nat.succ_mul n P
    rcases visit_cases hc hi with ⟨_, _, avail, hv', hi'⟩ | ⟨_, hrest⟩
    · rw [hv'] at hv
      simp only [Step.next.injEq] at hv
      subst hv
      obtain ⟨e1, e2, e3⟩ := advance_fields (s := s) (t :=
        { s with
          g := { s.g with
                 available := avail
                 safeSequence := s.g.safeSequence ++ [procName s.p] }
          done := s.done.set s.p true
          doneCounter := s.doneCounter + 1 }) hnl rfl rfl
      rw [e3] at hcomp
      simp only [decide_True] at hcomp
      by_cases hw : s.p + 1 = P
      · simp only [if_pos hw] at e1 e2
        refine ⟨_, n + 1, hi', by rw [e1]; omega, ?_⟩
        rw [e1, e2]
        constructor
        · intro _ j hj1 hj2; omega
        · intro _; rfl
      · simp only [if_neg hw] at e1 e2
        refine ⟨_, n, hi', by rw [e1]; omega, ?_⟩
        rw [e1, e2]
        constructor
        · intro hfc
          have := hi.fcLe
          omega
        · intro hall
          have := hall k (by omega) (by omega)
          rw [hcomp] at this
          exact absurd this (by simp)
    · rcases hrest with ⟨_, hv'⟩ | ⟨_, _, hv'⟩ | ⟨_, hfc, hv', hi'⟩
      · rw [hv'] at hv; exact absurd hv (by simp)
      · rw [hv'] at hv; exact absurd hv (by simp)
      · rw [hv'] at hv
        simp only [Step.next.injEq] at hv
        subst hv
        obtain ⟨e1, e2, e3⟩ := advance_fields (s := s)
          (t := { s with failCounter := s.failCounter + 1 }) hnl rfl rfl
        rw [e3] at hcomp
        have hcomp' : completesAt P (entry P g) k = false := by
          rw [hcomp]
          simp
        by_cases hw : s.p + 1 = P
        · simp only [if_pos hw] at e1 e2
          refine ⟨_, n + 1, hi', by rw [e1]; omega, ?_⟩
          rw [e1, e2]
          constructor
          · intro _ j hj1 hj2; omega
          · intro _; rfl
        · simp only [if_neg hw] at e1 e2
          refine ⟨_, n, hi', by rw [e1]; omega, ?_⟩
          rw [e1, e2]
          constructor
          · intro hfc' j hj1 hj2
            by_cases hjk : j = k
            · rw [hjk]; exact hcomp'
            · exact hiff.1 (by omega) j hj1 (by omega)
          · intro hall
            have := hiff.2 (fun j hj1 hj2 => hall j hj1 (by omega))
            omega

/-- A pass that starts with a process pending and completes nothing ends, at
index `P - 1`, with `return false`. -/
theorem idle_pass_returns_false {P R : Nat} {g : Globals} (hP : 1 ≤ P)
    (hc : Consistent P R g) (n : Nat) (s0 : Frame)
    (h0 : frameAt P (entry P g) (n * P) = some s0) (hd : s0.doneCounter < P)
    (hidle : ∀ j, n * P ≤ j → j < n * P + P → completesAt P (entry P g) j = false) :
    ∃ s', frameAt P (entry P g) (n * P + (P - 1)) = some s' ∧
      visit P s' = .ret false s'.g := by
  have key : ∀ i, i < P → ∃ s, frameAt P (entry P g) (n * P + i) = some s ∧
      s.p = i ∧ s.failCounter = i ∧ s.doneCounter = s0.doneCounter := by
    intro i
    induction i with
    | zero =>
      intro _
      obtain ⟨seq, n', hi, hk, _⟩ := trace_inv hP hc _ s0 h0
      have hu := pass_index_unique (i := 0) (show n * P + 0 = n' * P + s0.p from hk) hP hi.pLt
      have := hi.fcLe
      exact ⟨s0, h0, hu.2.symm, by omega, rfl⟩
    | succ i ih =>
      intro hi1
      obtain ⟨s, hs, hp, hf, hdc⟩ := ih (by omega)
      obtain ⟨seq, n', hi, _, _⟩ := trace_inv hP hc _ s hs
      have hnl : s.g.necessary.length = P := by rw [hi.nec]; exact hc.2.1
      have hno := hidle (n * P + i) (by omega) (by omega)
      rcases visit_cases hc hi with ⟨_, _, avail, hv, _⟩ | ⟨_, hrest⟩
      · rw [completesAt_next hs hv, advance_doneCounter] at hno
        simp at hno
      · rcases hrest with ⟨hdc', _⟩ | ⟨_, hfc, _⟩ | ⟨_, _, hv, _⟩
        · omega
        · omega
        · obtain ⟨e1, e2, e3⟩ := advance_fields (s := s)
            (t := { s with failCounter := s.failCounter + 1 }) hnl rfl rfl
          rw [if_neg (by omega)] at e1 e2
          exact ⟨_, frameAt_succ hs hv, by rw [e1, hp], by rw [e2, hf], by rw [e3, hdc]⟩
  obtain ⟨s, hs, hp, hf, hdc⟩ := key (P - 1) (by omega)
  obtain ⟨seq, n', hi, _, _⟩ := trace_inv hP hc _ s hs
  have hno := hidle (n * P + (P - 1)) (by omega) (by omega)
  refine ⟨s, hs, ?_⟩
  rcases visit_cases hc hi with ⟨_, _, avail, hv, _⟩ | ⟨_, hrest⟩
  · rw [completesAt_next hs hv, advance_doneCounter] at hno
    simp at hno
  · rcases hrest with ⟨hdc', _⟩ | ⟨_, _, hv⟩ | ⟨_, hfc, _, _⟩
    · omega
    · exact hv
    · omega

/-- C15, counterexample: on `lone` the second pass (visit number 1, `P = 1`)
completes no process and `safeState` returns `true` in it, not `false`. -/
theorem idle_pass_returns_true :
    Consistent 1 2 lone ∧ completesAt 1 (entry 1 lone) 0 = true ∧
    completesAt 1 (entry 1 lone) 1 = false ∧
    (frameAt 1 (entry 1 lone) 1).map (visit 1) =
      some (.ret true { lone with available := [1, 4], safeSequence := ["P0"] }) := by
  decide

/-- C15, amended: on a state with `P ≥ 1` and consistent dimensions, visits
being numbered from `0` so that pass `n` is made of the visits
`n * P .. n * P + P - 1`: when a visit returns `false` it is the visit of
index `P - 1` of a pass in which no process was completed, some process is
still pending, and every earlier pass completed a process; and every pass that
starts with some process pending and completes no process returns `false` at
its index `P - 1`. A visit made when all processes are done completes nothing
and returns `true`. -/
theorem false_after_idle_pass (P R : Nat) (g : Globals) (hP : 1 ≤ P)
    (hc : Consistent P R g) :
    (∀ (k : Nat) (s : Frame) (g' : Globals), frameAt P (entry P g) k = some s →
      visit P s = .ret false g' →
      ∃ n, k = n * P + (P - 1) ∧ s.doneCounter < P ∧
        (∀ j, n * P ≤ j → j ≤ k → completesAt P (entry P g) j = false) ∧
        (∀ m, m < n →
          ∃ j, m * P ≤ j ∧ j < m * P + P ∧ completesAt P (entry P g) j = true)) ∧
    (∀ (n : Nat) (s : Frame), frameAt P (entry P g) (n * P) = some s → s.doneCounter < P →
      (∀ j, n * P ≤ j → j < n * P + P → completesAt P (entry P g) j = false) →
      ∃ s', frameAt P (entry P g) (n * P + (P - 1)) = some s' ∧
        visit P s' = .ret false s'.g) ∧
    (∀ (k : Nat) (s : Frame), frameAt P (entry P g) k = some s → P ≤ s.doneCounter →
      visit P s = .ret true s.g ∧ completesAt P (entry P g) k = false) := by
  refine ⟨?_, fun n s h0 hd hidle => idle_pass_returns_false hP hc n s h0 hd hidle, ?_⟩
  swap
  · intro k s hs hge
    obtain ⟨seq, n, hi, _, _⟩ := trace_inv hP hc k s hs
    have hret : visit P s = .ret true s.g := by
      rcases visit_cases hc hi with ⟨hnot, _, _⟩ | ⟨_, hrest⟩
      · have hperm := nodup_perm_range hi.nodup (fun i h => hi.mem_lt h)
          (by rw [← hi.cnt]; exact hge)
        exact absurd (hperm.mem_iff.2 (List.mem_range.2 hi.pLt)) hnot
      · rcases hrest with ⟨_, hv'⟩ | ⟨hlt, _, _⟩ | ⟨hlt, _, _, _⟩
        · exact hv'
        · omega
        · omega
    exact ⟨hret, completesAt_ret hs hret⟩
  intro k s g' hs hv
  obtain ⟨seq, n, hi, hk, hiff⟩ := trace_inv hP hc k s hs
  obtain ⟨_, hb⟩ := visit_ret_inv hv
  rcases hb with ⟨hb, _⟩ | ⟨_, hdc, hfc⟩
  · exact absurd hb (by simp)
  have hfp : s.failCounter = s.p := by have := hi.fcLe; have := hi.pLt; omega
  have hpl : s.p = P - 1 := by have := hi.fcLe; have := hi.pLt; omega
  refine ⟨n, by rw [hk, hpl], hdc, ?_, ?_⟩
  · intro j hj1 hj2
    by_cases hjk : j = k
    · rw [hjk]; exact completesAt_ret hs hv
    · exact hiff.1 hfp j hj1 (by omega)
  · intro m hm
    by_contra hcon
    have hidle : ∀ j, m * P ≤ j → j < m * P + P → completesAt P (entry P g) j = false := by
      intro j hj1 hj2
      by_contra hne
      exact hcon ⟨j, hj1, hj2, by simpa using hne⟩
    have hle : m * P + P ≤ n * P := by
      have := Nat.mul_le_mul_right P (show m + 1 ≤ n by omega)
      rwa [Nat.succ_mul] at this
    obtain ⟨sm, hsm⟩ := frameAt_isSome_of_le hs (show m * P ≤ k by omega)
    have hdm : sm.doneCounter < P := by
      by_contra hge
      obtain ⟨seqm, nm, him, _, _⟩ := trace_inv hP hc _ sm hsm
      rcases visit_cases hc him with ⟨hnot, _, _⟩ | ⟨_, hrest⟩
      · have hperm := nodup_perm_range him.nodup (fun i h => him.mem_lt h)
          (by rw [← him.cnt]; omega)
        exact hnot (hperm.mem_iff.2 (List.mem_range.2 him.pLt))
      · rcases hrest with ⟨_, hv'⟩ | ⟨hlt, _, _⟩ | ⟨hlt, _, _, _⟩
        · have := frameAt_none_after_ret hsm hv' k (by omega)
          rw [hs] at this
          exact absurd this (by simp)
        · omega
        · omega
    obtain ⟨s', hs', hv'⟩ := idle_pass_returns_false hP hc m sm hsm hdm hidle
    have := frameAt_none_after_ret hs' hv' k (by omega)
    rw [hs] at this
    exact absurd this (by simp)

/-- Instance of `false_after_idle_pass` on `stalled`, whose visit number 3
returns `false`. -/
theorem false_after_idle_pass_witness :
    ∃ n, 3 = n * 2 + (2 - 1) ∧ 1 < 2 ∧
      (∀ j, n * 2 ≤ j → j ≤ 3 → completesAt 2 (entry 2 stalled) j = false) ∧
      (∀ m, m < n →
        ∃ j, m * 2 ≤ j ∧ j < m * 2 + 2 ∧ completesAt 2 (entry 2 stalled) j = true) :=
  (false_after_idle_pass 2 1 stalled (by decide) (by decide)).1 3
    { g := { stalled with available := [1], safeSequence := ["P0"] }, p := 1,
      done := [true, false], doneCounter := 1, failCounter := 1 }
    { stalled with available := [1], safeSequence := ["P0"] } (by decide) (by decide)

theorem Lite.available_ge {P : Nat} {g : Globals} {seq : List Nat} {s : Frame}
    (hi : Lite P g seq s) (hav : ∀ x ∈ g.available, (0 : Int) ≤ x) (hn : HeldNonNeg g)
    (hroom : Roomy P g) :
    s.g.available.length = g.available.length ∧ (∀ x ∈ s.g.available, (0 : Int) ≤ x) ∧
      ∀ r, g.available.getD r 0 ≤ s.g.available.getD r 0 := by
  have hge : ∀ r, g.available.getD r 0 ≤ s.g.available.getD r 0 := by
    intro r
    rw [hi.avail, poolAfter_eq_poolSum hn hroom seq hi.nodup (fun i h => hi.lt_of_mem h)]
    exact le_poolSum hn (pool0 g) seq r
  refine ⟨hi.availLen, ?_, hge⟩
  intro x hx
  obtain ⟨r, hr, rfl⟩ := List.getElem_of_mem hx
  have h1 := hge r
  have h2 := getD_nonneg g.available hav r
  have h3 : s.g.available.getD r 0 = s.g.available[r] := by
    rw [List.getD_eq_getElem?_getD, List.getElem?_eq_getElem hr]
    rfl
  rw [h3] at h1
  omega

/-- C16, counterexample: on `loneBrim`, whose `available` and `assigned`
entries are non-negative, the addition of what process 0 gives back overflows:
`safeState` returns with `available` at `-2^63`, negative and below its value
at entry. -/
theorem overflow_shrinks_available :
    (∀ x ∈ loneBrim.available, (0 : Int) ≤ x) ∧
    (∀ row ∈ loneBrim.assigned, ∀ x ∈ row, (0 : Int) ≤ x) ∧
    safeState 1 2 loneBrim =
      .returned true none
        { loneBrim with available := [-9223372036854775808], safeSequence := ["P0"] } ∧
    ¬ (loneBrim.available.getD 0 0 ≤ [(-9223372036854775808 : Int)].getD 0 0) := by
  decide

/-- C16, amended: on a state whose `available` and `assigned` entries are
non-negative and where no addition can overflow (every `available[r]` plus all
of `assigned[0..P-1][r]` is at most `2^63 - 1`), at every visit of the
evaluation and at return `available` keeps its length, has non-negative
entries and is entrywise at least its value at entry; and from one visit to
the next `available` is unchanged unless the visit completed process `p`, in
which case `assigned[p][r]` has been added to `available[r]` for every `r`. -/
theorem available_never_shrinks (P : Nat) (g : Globals)
    (hav : ∀ x ∈ g.available, (0 : Int) ≤ x)
    (hasg : ∀ row ∈ g.assigned, ∀ x ∈ row, (0 : Int) ≤ x) (hroom : Roomy P g) :
    (∀ (k : Nat) (s : Frame), frameAt P (entry P g) k = some s →
      s.g.available.length = g.available.length ∧ (∀ x ∈ s.g.available, (0 : Int) ≤ x) ∧
        ∀ r, g.available.getD r 0 ≤ s.g.available.getD r 0) ∧
    (∀ (fuel : Nat) (b : Bool) (e : Option String) (g' : Globals),
      safeState P fuel g = .returned b e g' →
      g'.available.length = g.available.length ∧ (∀ x ∈ g'.available, (0 : Int) ≤ x) ∧
        ∀ r, g.available.getD r 0 ≤ g'.available.getD r 0) ∧
    (∀ (k : Nat) (s s' : Frame), frameAt P (entry P g) k = some s →
      frameAt P (entry P g) (k + 1) = some s' →
      s'.g.available = s.g.available ∨
        (completesAt P (entry P g) k = true ∧
          ∀ r, s'.g.available.getD r 0 = s.g.available.getD r 0 + held g s.p r)) := by
  have hn := held_nonneg_of_rows hasg
  refine ⟨?_, ?_, ?_⟩
  · intro k s hs
    obtain ⟨seq, hi⟩ := frameAt_lite P g k s hs
    exact hi.available_ge hav hn hroom
  · intro fuel b e g' h
    obtain ⟨s, seq, rfl, hi, _⟩ := safeState_lite h
    exact hi.available_ge hav hn hroom
  · intro k s s' hs hs'
    obtain ⟨s1, hs1, hv⟩ := frameAt_succ_inv hs'
    rw [hs] at hs1
    simp only [Option.some.injEq] at hs1
    subst hs1
    obtain ⟨seq, hi⟩ := frameAt_lite P g k s hs
    rcases hi.visit_next hv with ⟨_, hi', hdc, _⟩ | ⟨hg, _, _⟩
    · right
      refine ⟨?_, ?_⟩
      · rw [completesAt_next hs hv]
        simpa using hdc
      · intro r
        rw [hi'.avail, hi.avail,
          poolAfter_eq_poolSum hn hroom _ hi'.nodup (fun i h => hi'.lt_of_mem h),
          poolAfter_eq_poolSum hn hroom _ hi.nodup (fun i h => hi.lt_of_mem h),
          poolSum_concat]
    · left
      rw [hg]

/-- Instance of `available_never_shrinks` on `relay`, at its visit number 1
(which completes process 1) and at return. -/
theorem available_never_shrinks_witness :
    ([2].length = relay.available.length ∧ (∀ x ∈ [2], (0 : Int) ≤ x) ∧
        ∀ r, relay.available.getD r 0 ≤ [2].getD r 0) ∧
    ([2] = relay.available ∨
      (completesAt 2 (entry 2 relay) 1 = true ∧
        ∀ r, [2].getD r 0 = relay.available.getD r 0 + held relay 1 r)) :=
  ⟨(available_never_shrinks 2 relay (by decide) (by decide)
      (roomy_of_check 1 (by decide) (by decide) (by decide))).2.1 4 true none
      { relay with available := [2], safeSequence := ["P1", "P0"] } (by decide),
   (available_never_shrinks 2 relay (by decide) (by decide)
      (roomy_of_check 1 (by decide) (by decide) (by decide))).2.2 1
      { g := relay, p := 1, done := [false, false], doneCounter := 0, failCounter := 1 }
      { g := { relay with available := [2], safeSequence := ["P1"] }, p := 0,
        done := [false, true], doneCounter := 1, failCounter := 0 }
      (by decide) (by decide)⟩

/-- C17, counterexample: on `lone` the first visit completes the last (only)
process and does not return; index `0` is visited once more before
`safeState` returns `true`. -/
theorem completing_visit_goes_on :
    visit 1 (entry 1 lone) =
      .next { g := { lone with available := [1, 4], safeSequence := ["P0"] }, p := 0,
              done := [true], doneCounter := 1, failCounter := 0 } ∧
    safeState 1 1 lone = .running ∧
    safeState 1 2 lone =
      .returned true none { lone with available := [1, 4], safeSequence := ["P0"] } := by
  decide

/-- C17, amended: on a state with `P ≥ 1` and consistent dimensions, the visit
that completes the `P`-th process does not return; the next visit, at the next
index in circular order, completes nothing and returns `true`: exactly one
more index is visited. Conversely every `return true` comes right after a
visit that completed a process. -/
theorem safe_fires_on_next_visit (P R : Nat) (g : Globals) (hP : 1 ≤ P)
    (hc : Consistent P R g) :
    (∀ (k : Nat) (s s' : Frame), frameAt P (entry P g) k = some s → visit P s = .next s' →
      s'.doneCounter = s.doneCounter + 1 → s'.doneCounter = P →
      frameAt P (entry P g) (k + 1) = some s' ∧ visit P s' = .ret true s'.g ∧
        s'.p = (if s.p + 1 = P then 0 else s.p + 1) ∧
        safeState P (k + 1) g = .running ∧
        ∀ fuel, k + 2 ≤ fuel → safeState P fuel g = .returned true none s'.g) ∧
    (∀ (k : Nat) (s : Frame) (g' : Globals), frameAt P (entry P g) k = some s →
      visit P s = .ret true g' →
      ∃ j, k = j + 1 ∧ completesAt P (entry P g) j = true) := by
  constructor
  · intro k s s' hs hv _ hall
    have hs' := frameAt_succ hs hv
    obtain ⟨seq, n, hi, _, _⟩ := trace_inv hP hc k s hs
    obtain ⟨seq', n', hi', _, _⟩ := trace_inv hP hc (k + 1) s' hs'
    have hnl : s.g.necessary.length = P := by rw [hi.nec]; exact hc.2.1
    have hperm := nodup_perm_range hi'.nodup (fun i h => hi'.mem_lt h)
      (by rw [← hi'.cnt]; omega)
    have hret : visit P s' = .ret true s'.g := by
      rcases visit_cases hc hi' with ⟨hnot, _, _⟩ | ⟨_, hrest⟩
      · exact absurd (hperm.mem_iff.2 (List.mem_range.2 hi'.pLt)) hnot
      · rcases hrest with ⟨_, hv'⟩ | ⟨hlt, _, _⟩ | ⟨hlt, _, _, _⟩
        · exact hv'
        · omega
        · omega
    have hp : s'.p = (if s.p + 1 = P then 0 else s.p + 1) := by
      rcases visit_next_inv hv with ⟨_, _, _, _, _, _, _, _, rfl⟩ | ⟨rfl, _, _⟩
      · rw [advance_p]
        dsimp only
        rw [hnl]
      · rw [advance_p]
        dsimp only
        rw [hnl]
    obtain ⟨h1, h2⟩ := run_of_ret hs' hret
    refine ⟨hs', hret, hp, h2, ?_⟩
    intro fuel hfuel
    exact run_mono P _ _ true none s'.g h1 fuel (by omega)
  · intro k s g' hs hv
    obtain ⟨_, hb⟩ := visit_ret_inv hv
    rcases hb with ⟨_, hdc⟩ | ⟨hb, _, _⟩
    · cases k with
      | zero =>
        simp only [frameAt, Option.some.injEq] at hs
        subst hs
        simp only [entry] at hdc
        omega
      | succ j =>
        refine ⟨j, rfl, ?_⟩
        obtain ⟨s0, hs0, hv0⟩ := frameAt_succ_inv hs
        rw [completesAt_next hs0 hv0]
        rcases visit_next_inv hv0 with ⟨_, _, _, _, _, _, _, _, rfl⟩ | ⟨rfl, hlt, _⟩
        · rw [advance_doneCounter]
          simp
        · rw [advance_doneCounter] at hdc
          dsimp only at hdc
          omega
    · exact absurd hb (by simp)

/-- Instance of `safe_fires_on_next_visit` on `lone`: visit number 0 completes
the only process, visit number 1 returns `true`. -/
theorem safe_fires_on_next_visit_witness :
    (frameAt 1 (entry 1 lone) (0 + 1) =
        some { g := { lone with available := [1, 4], safeSequence := ["P0"] }, p := 0,
               done := [true], doneCounter := 1, failCounter := 0 } ∧
      visit 1 { g := { lone with available := [1, 4], safeSequence := ["P0"] }, p := 0,
                done := [true], doneCounter := 1, failCounter := 0 } =
        .ret true { lone with available := [1, 4], safeSequence := ["P0"] } ∧
      (0 : Nat) = (if 0 + 1 = 1 then 0 else 0 + 1) ∧
      safeState 1 (0 + 1) lone = .running ∧
      ∀ fuel, 0 + 2 ≤ fuel → safeState 1 fuel lone =
        .returned true none { lone with available := [1, 4], safeSequence := ["P0"] }) ∧
    ∃ j, 1 = j + 1 ∧ completesAt 1 (entry 1 lone) j = true :=
  ⟨(safe_fires_on_next_visit 1 2 lone (by decide) (by decide)).1 0 (entry 1 lone)
      { g := { lone with available := [1, 4], safeSequence := ["P0"] }, p := 0,
        done := [true], doneCounter := 1, failCounter := 0 }
      (by decide) (by decide) (by decide) (by decide),
   (safe_fires_on_next_visit 1 2 lone (by decide) (by decide)).2 1
      { g := { lone with available := [1, 4], safeSequence := ["P0"] }, p := 0,
        done := [true], doneCounter := 1, failCounter := 0 }
      { lone with available := [1, 4], safeSequence := ["P0"] } (by decide) (by decide)⟩

/-- C18, counterexample: `nearBrim` and `brim` have consistent dimensions, the
same non-negative `assigned` and `necessary` matrices, and `available` is
larger in `brim`; `safeState` returns `true` on `nearBrim` and `false` on
`brim`, where the addition of what process 0 gives back overflows. -/
theorem overflow_breaks_monotonicity :
    Consistent 2 1 nearBrim ∧ Consistent 2 1 brim ∧
    brim.assigned = nearBrim.assigned ∧ brim.necessary = nearBrim.necessary ∧
    (∀ row ∈ nearBrim.assigned, ∀ x ∈ row, (0 : Int) ≤ x) ∧
    nearBrim.available.getD 0 0 ≤ brim.available.getD 0 0 ∧
    safeState 2 4 nearBrim =
      .returned true none
        { nearBrim with available := [9223372036854775807], safeSequence := ["P0", "P1"] } ∧
    safeState 2 4 brim =
      .returned false none
        { brim with available := [-9223372036854775808], safeSequence := ["P0"] } := by
  decide

/-- C18, amended: for two states of consistent dimensions with `P ≥ 1`, the
same `assigned` (non-negative) and `necessary` matrices, `available` entrywise
at least as large in the second, the entries of `available` of the first at
least `-2^63` and no possible overflow on the second (every `available[r]`
plus all of `assigned[0..P-1][r]` is at most `2^63 - 1`), when `safeState`
returns `true` on the first it returns `true` on the second. -/
theorem more_available_stays_safe (P R fuel : Nat) (g g' f : Globals) (e : Option String)
    (hP : 1 ≤ P) (hc : Consistent P R g) (hc' : Consistent P R g')
    (hasg : g'.assigned = g.assigned) (hnec : g'.necessary = g.necessary)
    (hn : ∀ row ∈ g.assigned, ∀ x ∈ row, (0 : Int) ≤ x)
    (hle : ∀ r, g.available.getD r 0 ≤ g'.available.getD r 0)
    (hlow : ∀ r, intMin ≤ g.available.getD r 0) (hroom : Roomy P g')
    (h : safeState P fuel g = .returned true e f) (fuel' : Nat)
    (hfuel : P * P + 1 ≤ fuel') :
    ∃ f', safeState P fuel' g' = .returned true none f' := by
  obtain ⟨_, seq, hf⟩ := safeState_final hP hc h
  have hheld : HeldNonNeg g' := held_nonneg_of_rows (by rw [hasg]; exact hn)
  have hh : ∀ p r, held g' p r = held g p r := by intro p r; simp [held, hasg]
  have hroom0 : Roomy P g := by
    intro r
    refine ⟨hlow r, ?_⟩
    have h1 := (hroom r).2
    have h2 : pool0 g r ≤ pool0 g' r := hle r
    simp only [hh] at h1
    omega
  have hrep : replay g' R (pool0 g') seq = true :=
    replay_transfer hasg hnec (held_nonneg_of_rows hn) hroom0 hroom hle hf.nodup hf.lt hf.ok
  exact safeState_of_safe_order hP hc' hheld hroom hf.perm hrep hfuel

/-- Instance of `more_available_stays_safe`: `relay`, and `relay` with one
more unit available. -/
theorem more_available_stays_safe_witness :
    ∃ f', safeState 2 5 { relay with available := [2] } = .returned true none f' :=
  more_available_stays_safe 2 1 4 relay { relay with available := [2] }
    { relay with available := [2], safeSequence := ["P1", "P0"] } none
    (by decide) (by decide) (by decide) rfl rfl (by decide)
    (by intro r; cases r with
      | zero => decide
      | succ k => simp [relay])
    (by intro r; cases r with
      | zero => decide
      | succ k => simp [relay, intMin])
    (roomy_of_check 1 (by decide) (by decide) (by decide))
    (by decide) 5 (by decide)

end Banker
